import Mathlib

/-!
Verification of the FlashTrans core translation pipeline (`src/core_engine.py`).

Python strings are modelled as `List Char`; each `re.sub` / `str.replace` /
`str.split` call of the source is embedded as a structurally recursive scanner
with the same leftmost, non-overlapping, greedy-run semantics.  All
definitions are executable.
-/

set_option maxRecDepth 4000

/-- CJK ideograph test, the codepoint range `[一-鿿]` used throughout
`core_engine.py`. -/
def isCJK (c : Char) : Bool :=
  0x4e00 ≤ c.toNat && c.toNat ≤ 0x9fff

/-- Python `\s` / `str.strip` whitespace (ASCII whitespace plus the Unicode
space characters Python treats as whitespace). -/
def isWs (c : Char) : Bool :=
  let n := c.toNat
  n = 0x9 || n = 0xA || n = 0xB || n = 0xC || n = 0xD || n = 0x1C ||
  n = 0x1D || n = 0x1E || n = 0x1F || n = 0x20 || n = 0x85 || n = 0xA0 ||
  n = 0x1680 || (0x2000 ≤ n && n ≤ 0x200A) || n = 0x2028 || n = 0x2029 ||
  n = 0x202F || n = 0x205F || n = 0x3000

/-- The character class `[ \t]` (horizontal blank) of the cleanup regexes. -/
def isBlank (c : Char) : Bool :=
  c = ' ' || c = '\t'

/-- `str.lstrip`: drop leading whitespace. -/
def lstrip (l : List Char) : List Char :=
  l.dropWhile isWs

/-- `str.strip`: drop leading and trailing whitespace. -/
def strip (l : List Char) : List Char :=
  ((l.dropWhile isWs).reverse.dropWhile isWs).reverse

/-- Fused embedding of `text.replace("\r\n", "\n").replace("\r", "\n")`
(line-ending normalization used by `_chunk_text`, `_normalize_ocr_text` and
`_normalize_english_input`). -/
def norm_eol : List Char → List Char
  | [] => []
  | [c] => if c = '\r' then ['\n'] else [c]
  | c :: d :: t =>
    if c = '\r' then
      if d = '\n' then '\n' :: norm_eol t else '\n' :: norm_eol (d :: t)
    else c :: norm_eol (d :: t)

/-- `re.split` with a lookbehind class `(?<=[...])`: cut after every character
satisfying `p`, keeping the terminator attached to the preceding piece.  A
trailing empty piece is produced when the input ends with a terminator,
exactly as in Python. -/
def split_after (p : Char → Bool) : List Char → List (List Char)
  | [] => [[]]
  | c :: t =>
    if p c then [c] :: split_after p t
    else
      match split_after p t with
      | q :: qs => (c :: q) :: qs
      | [] => [[c]]

/-- Sentence terminators of `_chunk_text`, the class `[。！？!?；;。\.…]`
(the full-width colon `：` is NOT in the class). -/
def isSentTerm (c : Char) : Bool :=
  c = '。' || c = '！' || c = '？' || c = '!' || c = '?' || c = '；' ||
  c = ';' || c = '.' || c = '…'

/-- The comma class `[，,]` of the CJK oversized-chunk split. -/
def isAnyComma (c : Char) : Bool :=
  c = '，' || c = ','

/-- Oversized-chunk splitting of one stripped sentence segment
(`_chunk_text`, lines 448-456). -/
def process_seg (seg0 : List Char) : List (List Char) :=
  let seg := strip seg0
  if seg = [] then []
  else
    let has_zh := seg.any isCJK
    let comma_count := seg.count '，' + seg.count ','
    if has_zh && (decide (seg.length > 80) ||
        (decide (comma_count ≥ 2) && decide (seg.length > 40))) then
      (split_after isAnyComma seg).filter (fun s => strip s ≠ [])
    else if !has_zh && decide (seg.length > 180) then
      (split_after (fun c => c = ',') seg).filter (fun s => strip s ≠ [])
    else [seg]

/-- Sentence-split one newline-free content block and apply the oversized
splitting to every piece (`_chunk_text`, lines 444-456). -/
def process_block (block : List Char) : List (List Char) :=
  ((split_after isSentTerm block).map process_seg).flatten

/-- Walk the normalized text, emitting one `"\n"` chunk per newline character
and `process_block` of every maximal newline-free content span; `acc` is the
content span read so far (`_chunk_text`, lines 437-456). -/
def chunk_blocks (acc : List Char) : List Char → List (List Char)
  | [] => process_block acc
  | c :: t =>
    if c = '\n' then process_block acc ++ ['\n'] :: chunk_blocks [] t
    else chunk_blocks (acc ++ [c]) t

/-- `CoreEngine._chunk_text`: normalize line endings, split into chunks, and
fall back to the whole normalized text when nothing survives. -/
def chunk_text (text : List Char) : List (List Char) :=
  let t := norm_eol text
  let parts := chunk_blocks [] t
  if parts = [] then [t] else parts

/-! ### Generic facts about `strip` and `split_after` -/

theorem mem_dropWhile_of_mem {p : Char → Bool} {l : List Char} {c : Char}
    (hc : c ∈ l) (hp : p c = false) : c ∈ l.dropWhile p := by
  induction l with
  | nil => cases hc
  | cons a t ih =>
    by_cases ha : p a = true
    · rw [List.dropWhile_cons_of_pos ha]
      rcases List.mem_cons.1 hc with rfl | h
      · rw [ha] at hp; cases hp
      · exact ih h
    · rw [List.dropWhile_cons_of_neg ha]
      exact hc

theorem mem_strip_of_mem {l : List Char} {c : Char}
    (hc : c ∈ l) (hp : isWs c = false) : c ∈ strip l := by
  unfold strip
  refine (List.mem_reverse).2 (mem_dropWhile_of_mem ?_ hp)
  exact (List.mem_reverse).2 (mem_dropWhile_of_mem hc hp)

theorem strip_ne_nil {l : List Char} {c : Char}
    (hc : c ∈ l) (hp : isWs c = false) : strip l ≠ [] := by
  intro h
  have hm := mem_strip_of_mem hc hp
  rw [h] at hm
  cases hm

theorem strip_subset {l : List Char} {c : Char} (hc : c ∈ strip l) : c ∈ l := by
  unfold strip at hc
  rw [List.mem_reverse] at hc
  have h1 := (List.dropWhile_sublist (l := (l.dropWhile isWs).reverse) (p := isWs)).mem hc
  rw [List.mem_reverse] at h1
  exact (List.dropWhile_sublist (l := l) (p := isWs)).mem h1

theorem split_after_ne_nil (p : Char → Bool) (l : List Char) :
    split_after p l ≠ [] := by
  induction l with
  | nil => simp [split_after]
  | cons c t ih =>
    unfold split_after
    by_cases h : p c = true
    · simp [h]
    · simp only [h]
      cases hs : split_after p t with
      | nil => simp
      | cons q qs => simp

theorem split_after_flatten (p : Char → Bool) (l : List Char) :
    (split_after p l).flatten = l := by
  induction l with
  | nil => simp [split_after]
  | cons c t ih =>
    unfold split_after
    by_cases h : p c = true
    · simp [h, ih]
    · simp only [h]
      cases hs : split_after p t with
      | nil => exact absurd hs (split_after_ne_nil p t)
      | cons q qs =>
        rw [hs] at ih
        simpa using ih

theorem mem_of_mem_split_after {p : Char → Bool} {l q : List Char} {c : Char}
    (hq : q ∈ split_after p l) (hc : c ∈ q) : c ∈ l := by
  have : c ∈ (split_after p l).flatten := List.mem_flatten.2 ⟨q, hq, hc⟩
  rwa [split_after_flatten] at this

theorem split_after_dropLast {p : Char → Bool} {l q : List Char}
    (hq : q ∈ (split_after p l).dropLast) :
    ∃ c, q.getLast? = some c ∧ p c = true := by
  induction l generalizing q with
  | nil => simp [split_after] at hq
  | cons c t ih =>
    unfold split_after at hq
    by_cases h : p c = true
    · rw [if_pos h, List.dropLast_cons_of_ne_nil (split_after_ne_nil p t)] at hq
      rcases List.mem_cons.1 hq with rfl | h2
      · exact ⟨c, rfl, h⟩
      · exact ih h2
    · rw [if_neg h] at hq
      cases hs : split_after p t with
      | nil => exact absurd hs (split_after_ne_nil p t)
      | cons r rs =>
        rw [hs] at hq
        cases rs with
        | nil => simp at hq
        | cons r2 rs2 =>
          rw [List.dropLast_cons_of_ne_nil (by simp)] at hq
          rcases List.mem_cons.1 hq with rfl | h2
          · have hr : r ∈ (split_after p t).dropLast := by
              rw [hs, List.dropLast_cons_of_ne_nil (by simp)]
              exact List.mem_cons_self r _
            obtain ⟨d, hd, hpd⟩ := ih hr
            refine ⟨d, ?_, hpd⟩
            cases r with
            | nil => simp at hd
            | cons r0 rt => simpa using hd
          · refine ih ?_
            rw [hs, List.dropLast_cons_of_ne_nil (by simp)]
            exact List.mem_cons_of_mem r h2

theorem split_after_interior {p : Char → Bool} {l q : List Char}
    (hq : q ∈ split_after p l) : ∀ c ∈ q.dropLast, p c = false := by
  induction l generalizing q with
  | nil =>
    simp [split_after] at hq
    simp [hq]
  | cons c t ih =>
    unfold split_after at hq
    by_cases h : p c = true
    · rw [if_pos h] at hq
      rcases List.mem_cons.1 hq with rfl | h2
      · simp
      · exact ih h2
    · rw [if_neg h] at hq
      cases hs : split_after p t with
      | nil => exact absurd hs (split_after_ne_nil p t)
      | cons r rs =>
        rw [hs] at hq
        rcases List.mem_cons.1 hq with rfl | h2
        · intro d hd
          cases r with
          | nil => simp at hd
          | cons r0 rt =>
            rw [List.dropLast_cons_of_ne_nil (by simp)] at hd
            rcases List.mem_cons.1 hd with rfl | h3
            · exact Bool.eq_false_iff.mpr h
            · exact ih (by rw [hs]; exact List.mem_cons_self _ _) d h3
        · exact ih (by rw [hs]; exact List.mem_cons_of_mem r h2)

theorem split_after_getLast {p : Char → Bool} {l q : List Char}
    (hq : (split_after p l).getLast? = some q) : ∀ c ∈ q, p c = false := by
  induction l generalizing q with
  | nil =>
    simp [split_after] at hq
    simp [hq]
  | cons c t ih =>
    unfold split_after at hq
    by_cases h : p c = true
    · rw [if_pos h] at hq
      cases hs : split_after p t with
      | nil => exact absurd hs (split_after_ne_nil p t)
      | cons r rs =>
        rw [hs, List.getLast?_cons_cons] at hq
        refine ih ?_
        rw [hs]
        cases rs with
        | nil => exact hq
        | cons r2 rs2 => rw [List.getLast?_cons_cons]; exact hq
    · rw [if_neg h] at hq
      cases hs : split_after p t with
      | nil => exact absurd hs (split_after_ne_nil p t)
      | cons r rs =>
        rw [hs] at hq
        cases hrs : rs with
        | nil =>
          subst hrs
          simp at hq
          intro d hd
          subst hq
          rcases List.mem_cons.1 hd with rfl | h2
          · exact Bool.eq_false_iff.mpr h
          · have : (split_after p t).getLast? = some r := by rw [hs]; simp
            exact ih this d h2
        | cons r2 rs2 =>
          subst hrs
          rw [List.getLast?_cons_cons] at hq
          have : (split_after p t).getLast? = some q := by
            rw [hs, List.getLast?_cons_cons]
            exact hq
          exact ih this

theorem split_after_no_match {p : Char → Bool} {l : List Char}
    (h : ∀ c ∈ l, p c = false) : split_after p l = [l] := by
  induction l with
  | nil => rfl
  | cons c t ih =>
    unfold split_after
    rw [if_neg (by simp [h c (List.mem_cons_self c t)])]
    rw [ih (fun d hd => h d (List.mem_cons_of_mem c hd))]

theorem strip_eq_nil_iff {l : List Char} :
    strip l = [] ↔ ∀ c ∈ l, isWs c = true := by
  constructor
  · intro h c hc
    by_contra hw
    exact strip_ne_nil hc (Bool.eq_false_iff.mpr hw) h
  · intro h
    unfold strip
    rw [List.dropWhile_eq_nil_iff.2 h]
    rfl

theorem norm_eol_of_no_cr {l : List Char} (h : '\r' ∉ l) : norm_eol l = l := by
  induction l with
  | nil => rfl
  | cons c t ih =>
    have hc : ¬(c = '\r') := fun hh => h (hh ▸ List.mem_cons_self c t)
    have ht : '\r' ∉ t := fun hh => h (List.mem_cons_of_mem c hh)
    cases t with
    | nil => simp only [norm_eol, if_neg hc]
    | cons d t2 =>
      simp only [norm_eol, if_neg hc]
      rw [ih ht]

theorem chunk_blocks_no_nl {l : List Char} (h : '\n' ∉ l) :
    ∀ acc, chunk_blocks acc l = process_block (acc ++ l) := by
  induction l with
  | nil => intro acc; simp [chunk_blocks]
  | cons c t ih =>
    intro acc
    have hc : ¬(c = '\n') := fun hh => h (hh ▸ List.mem_cons_self c t)
    have ht : '\n' ∉ t := fun hh => h (List.mem_cons_of_mem c hh)
    simp only [chunk_blocks, if_neg hc]
    rw [ih ht]
    simp

theorem countP_comma_eq {l : List Char} :
    l.countP isAnyComma = l.count '，' + l.count ',' := by
  induction l with
  | nil => rfl
  | cons c t ih =>
    rw [List.countP_cons, List.count_cons, List.count_cons]
    by_cases h1 : c = '，'
    · subst h1; simp [isAnyComma, ih]; omega
    · by_cases h2 : c = ','
      · subst h2; simp [isAnyComma, ih]; omega
      · have hcf : isAnyComma c = false := by simp [isAnyComma, h1, h2]
        simp [hcf, h1, h2, ih]

theorem strip_cons_ne_nil {c : Char} {r : List Char} (hr : strip r ≠ []) :
    strip (c :: r) ≠ [] := by
  have hne : ¬ ∀ d ∈ r, isWs d = true := fun hall => hr (strip_eq_nil_iff.2 hall)
  push_neg at hne
  obtain ⟨d, hd, hw⟩ := hne
  exact strip_ne_nil (List.mem_cons_of_mem c hd) (Bool.eq_false_iff.mpr hw)

theorem countP_le_split_filter {p : Char → Bool}
    (hp : ∀ c, p c = true → isWs c = false) (l : List Char) :
    l.countP p ≤ ((split_after p l).filter (fun s => strip s ≠ [])).length := by
  induction l with
  | nil => simp
  | cons c t ih =>
    rw [List.countP_cons]
    simp only [ne_eq] at ih
    by_cases h : p c = true
    · have hsp : split_after p (c :: t) = [c] :: split_after p t := by
        rw [split_after.eq_2, if_pos h]
      rw [hsp, h, if_pos rfl, List.filter_cons]
      have hcs : strip [c] ≠ [] :=
        strip_ne_nil (List.mem_singleton.2 rfl) (hp c h)
      simp only [hcs, ne_eq, not_false_eq_true, decide_True, if_pos, List.length_cons]
      omega
    · cases hs : split_after p t with
      | nil => exact absurd hs (split_after_ne_nil p t)
      | cons r rs =>
        have hsp : split_after p (c :: t) = (c :: r) :: rs := by
          rw [split_after.eq_2, if_neg h, hs]
        have h0 : (if p c = true then 1 else 0) = 0 := by simp [h]
        rw [hsp, h0, Nat.add_zero, List.filter_cons]
        rw [hs, List.filter_cons] at ih
        by_cases hr : strip r = []
        · simp only [hr, ne_eq, not_true_eq_false, decide_False,
            Bool.false_eq_true, if_false] at ih
          by_cases hcr : strip (c :: r) = []
          · simp only [hcr, ne_eq, not_true_eq_false, decide_False,
              Bool.false_eq_true, if_false]
            simpa using ih
          · simp only [hcr, ne_eq, not_false_eq_true, decide_True, if_pos,
              List.length_cons]
            omega
        · have hcr := strip_cons_ne_nil (c := c) hr
          simp only [hr, ne_eq, not_false_eq_true, decide_True, if_pos,
            List.length_cons] at ih
          simp only [hcr, ne_eq, not_false_eq_true, decide_True, if_pos,
            List.length_cons]
          omega

/-! ### Claim C2: segmentation always yields a non-empty chunk list -/

/-- C2: for every input string, including the empty string, `chunk_text`
returns a non-empty list of chunks, and when no piece survives the splitting
and filtering the entire normalized text is returned as the single chunk. -/
theorem chunk_text_never_empty (s : List Char) :
    chunk_text s ≠ [] ∧
      (chunk_blocks [] (norm_eol s) = [] → chunk_text s = [norm_eol s]) := by
  unfold chunk_text
  by_cases h : chunk_blocks [] (norm_eol s) = []
  · simp [h]
  · simp [h]

/-- Witness for C2 at the empty input. -/
theorem chunk_text_never_empty_witness :
    chunk_text [] ≠ [] ∧ chunk_text [] = [norm_eol []] :=
  ⟨(chunk_text_never_empty []).1, (chunk_text_never_empty []).2 (by decide)⟩

/-! ### Claim C4: sentence-terminator splitting -/

/-- The spec scenario input `"Hello world. How are you?"`. -/
def hello_text : List Char := "Hello world. How are you?".toList

/-- Expected first chunk of the scenario. -/
def hello_chunk1 : List Char := "Hello world.".toList

/-- Expected second chunk of the scenario. -/
def hello_chunk2 : List Char := "How are you?".toList

/-- A content span holding a full-width colon. -/
def colon_text : List Char := "你：好".toList

/-- C4 counterexample: the full-width colon `：` is not a sentence terminator
of `_chunk_text`; a span containing it is returned as one single chunk, not
split after the colon. -/
theorem chunk_text_colon_not_split :
    colon_text.count '：' = 1 ∧ chunk_text colon_text = [colon_text] := by
  decide

/-- C4 amended: content spans are split after every occurrence of the
terminators `。 ！ ？ ! ? ； ; .` and the ellipsis `…` (full-width colon
excluded), each terminator kept attached to the end of the preceding chunk:
the split pieces concatenate back to the span, every piece but the last ends
with a terminator, no terminator occurs in a non-final position of a piece,
and `"Hello world. How are you?"` chunks into exactly
`["Hello world.", "How are you?"]`. -/
theorem sentence_split_characterization :
    (∀ l : List Char,
      ((split_after isSentTerm l).flatten = l) ∧
      (∀ q ∈ (split_after isSentTerm l).dropLast,
        ∃ c, q.getLast? = some c ∧ isSentTerm c = true) ∧
      (∀ q ∈ split_after isSentTerm l, ∀ c ∈ q.dropLast, isSentTerm c = false)) ∧
    chunk_text hello_text = [hello_chunk1, hello_chunk2] := by
  refine ⟨fun l => ⟨split_after_flatten _ l,
    fun q hq => split_after_dropLast hq,
    fun q hq => split_after_interior hq⟩, ?_⟩
  decide

/-- The input of the C4 witness. -/
def ab_text : List Char := "a.b!c".toList

/-- A non-final piece of the C4 witness split. -/
def ab_piece : List Char := "a.".toList

/-- Witness for C4 at a concrete split. -/
theorem sentence_split_characterization_witness :
    ((split_after isSentTerm ab_text).flatten = ab_text) ∧
    (∃ c, ab_piece.getLast? = some c ∧ isSentTerm c = true) ∧
    (isSentTerm 'a' = false) :=
  ⟨(sentence_split_characterization.1 ab_text).1,
   (sentence_split_characterization.1 ab_text).2.1 ab_piece (by decide),
   (sentence_split_characterization.1 ab_text).2.2 ab_piece (by decide) 'a' (by decide)⟩

/-! ### Claim C5: oversized CJK chunk splitting -/

/-- A CJK sentence of length 90 with 3 commas whose first comma piece has
length 87. -/
def long_cjk_sentence : List Char := List.replicate 86 '的' ++ "，，，好".toList

/-- The first comma piece of `long_cjk_sentence`. -/
def long_cjk_head : List Char := List.replicate 86 '的' ++ [ '，' ]

/-- C5 counterexample: `long_cjk_sentence` is CJK, has length 90 and 3 commas,
so the comma split fires, but its first piece has length 87, exceeding the
oversized-chunk threshold 80. -/
theorem long_cjk_piece_exceeds_threshold :
    long_cjk_sentence.length = 90 ∧
    long_cjk_sentence.count '，' + long_cjk_sentence.count ',' = 3 ∧
    long_cjk_sentence.any isCJK = true ∧
    (chunk_text long_cjk_sentence).head? = some long_cjk_head ∧
    long_cjk_head.length = 87 := by
  decide

/-- C5 amended: a CJK sentence (a single content span without sentence
terminators, already stripped) of length 90 with 3 commas is comma-split into
at least 3 pieces; the bound "each piece is at most the oversized-chunk
threshold" does not hold in general. -/
theorem cjk_comma_split_pieces (s : List Char)
    (h_nl : '\n' ∉ s) (h_cr : '\r' ∉ s)
    (h_term : ∀ c ∈ s, isSentTerm c = false)
    (h_strip : strip s = s)
    (h_zh : s.any isCJK = true)
    (h_commas : s.count '，' + s.count ',' = 3)
    (h_len : s.length = 90) :
    3 ≤ (chunk_text s).length := by
  have h_ne : s ≠ [] := by
    intro hh
    rw [hh] at h_len
    cases h_len
  have h1 : norm_eol s = s := norm_eol_of_no_cr h_cr
  have h2 : chunk_blocks [] s = process_block s := by
    simpa using chunk_blocks_no_nl h_nl []
  have h3 : split_after isSentTerm s = [s] := split_after_no_match h_term
  have h4 : process_block s = process_seg s := by
    unfold process_block
    rw [h3]
    simp
  have h5 : process_seg s = (split_after isAnyComma s).filter
      (fun q => strip q ≠ []) := by
    unfold process_seg
    rw [h_strip]
    rw [if_neg h_ne]
    have hcond : (s.any isCJK && (decide (s.length > 80) ||
        (decide (s.count '，' + s.count ',' ≥ 2) && decide (s.length > 40))))
        = true := by
      rw [h_zh, h_commas, h_len]
      decide
    rw [if_pos hcond]
  have h6 : 3 ≤ ((split_after isAnyComma s).filter
      (fun q => strip q ≠ [])).length := by
    have hcnt : s.countP isAnyComma = 3 := by
      rw [countP_comma_eq, h_commas]
    have := countP_le_split_filter (p := isAnyComma)
      (fun c hc => by
        have h' : c = '，' ∨ c = ',' := by simpa [isAnyComma] using hc
        rcases h' with rfl | rfl <;> decide) s
    omega
  have h7 : chunk_text s = (split_after isAnyComma s).filter
      (fun q => strip q ≠ []) := by
    unfold chunk_text
    rw [h1]
    dsimp only
    rw [h2, h4, h5]
    rw [if_neg (by
      intro hh
      rw [hh] at h6
      simp at h6)]
  rw [h7]
  exact h6

/-- Witness for C5 at `long_cjk_sentence`. -/
theorem cjk_comma_split_pieces_witness :
    3 ≤ (chunk_text long_cjk_sentence).length :=
  cjk_comma_split_pieces long_cjk_sentence (by decide) (by decide) (by decide)
    (by decide) (by decide) (by decide) (by decide)

/-! ### Reassembly (`_translate_with_chunking`, lines 397-419) -/

/-- The punctuation string `"，。！？；：、,.!?;:"` checked against the tail of
the previously appended fragment. -/
def isMergePunct (c : Char) : Bool :=
  c = '，' || c = '。' || c = '！' || c = '？' || c = '；' || c = '：' ||
  c = '、' || c = ',' || c = '.' || c = '!' || c = '?' || c = ';' || c = ':'

/-- The space-insertion test of the merge loop: a space goes before `part`
only when the previously appended fragment exists, is neither `"\n"` nor
`" "`, its tail is not terminal/clause punctuation, and the boundary is not
CJK-to-CJK. -/
def need_space (prev : Option (List Char)) (part : List Char) : Bool :=
  match prev with
  | none => false
  | some pv =>
    if pv = ['\n'] ∨ pv = [' '] then false
    else
      match pv.getLast? with
      | none => false
      | some pt =>
        if isMergePunct pt then false
        else
          match part.head? with
          | some ch => !(isCJK pt && isCJK ch)
          | none => true

/-- The merge loop over output slots: `prev` is the fragment appended last
(`merged_parts[-1]`); empty slots are skipped, `"\n"` slots are emitted
literally, and text slots get a leading space exactly when `need_space`
holds. -/
def merge_go (prev : Option (List Char)) : List (List Char) → List Char
  | [] => []
  | part :: rest =>
    if part = [] then merge_go prev rest
    else if part = ['\n'] then '\n' :: merge_go (some ['\n']) rest
    else (if need_space prev part then ' ' :: part else part) ++
      merge_go (some part) rest

mutual

/-- `re.sub(r"[ \t]{2,}", " ", ...)`: scan state with no blank pending. -/
def cb_main : List Char → List Char
  | [] => []
  | c :: t => if isBlank c then cb_blank c t else c :: cb_main t

/-- One blank `b` seen: a second blank collapses the whole run to a single
space, anything else emits `b` verbatim. -/
def cb_blank (b : Char) : List Char → List Char
  | [] => [b]
  | c :: t => if isBlank c then ' ' :: cb_run t else b :: c :: cb_main t

/-- Inside a collapsed blank run: drop the remaining blanks. -/
def cb_run : List Char → List Char
  | [] => []
  | c :: t => if isBlank c then cb_run t else c :: cb_main t

end

/-- `re.sub(r"[ ]+\n", "\n", ...)`: `pend` counts spaces read but not yet
emitted; they are dropped when a newline follows. -/
def sp_nl (pend : Nat) : List Char → List Char
  | [] => List.replicate pend ' '
  | c :: t =>
    if c = ' ' then sp_nl (pend + 1) t
    else if c = '\n' then '\n' :: sp_nl 0 t
    else List.replicate pend ' ' ++ c :: sp_nl 0 t

/-- `re.sub(r"\n[ ]+", "\n", ...)`: spaces directly after a newline are
dropped. -/
def nl_spaces (after_nl : Bool) : List Char → List Char
  | [] => []
  | c :: t =>
    if after_nl && c = ' ' then nl_spaces true t
    else if c = '\n' then '\n' :: nl_spaces true t
    else c :: nl_spaces false t

/-- Reassembly of the per-chunk output slots: merge, collapse blank runs,
strip spaces adjacent to newlines, and trim (lines 397-419). -/
def merge_parts (slots : List (List Char)) : List Char :=
  strip (nl_spaces false (sp_nl 0 (cb_main (merge_go none slots))))

/-- The whole segmentation/reassembly round trip with identity chunk
outputs: each chunk's output slot is the chunk itself. -/
def reassemble_id (text : List Char) : List Char :=
  merge_parts (chunk_text text)

theorem isCJK_not_merge_punct {c : Char} (hc : isCJK c = true) :
    isMergePunct c = false := by
  by_contra hm
  have hm' : isMergePunct c = true := by
    cases hx : isMergePunct c
    · exact absurd hx hm
    · rfl
  simp only [isMergePunct, Bool.or_eq_true, decide_eq_true_eq] at hm'
  rcases hm' with ((((((((((((h | h) | h) | h) | h) | h) | h) | h) | h) | h) | h) | h) | h) <;>
    (subst h; cases hc)

/-- Prefix states of the merge loop under which no space can ever be
inserted before an all-CJK slot. -/
def cjk_ok_prev (o : Option (List Char)) : Prop :=
  o = none ∨ o = some ['\n'] ∨
    (∃ pv, o = some pv ∧ pv ≠ [] ∧ ∀ c ∈ pv, isCJK c = true)

theorem merge_go_no_space {slots : List (List Char)} {prev : Option (List Char)}
    (hprev : cjk_ok_prev prev)
    (hslot : ∀ q ∈ slots, q = ['\n'] ∨ (q ≠ [] ∧ ∀ c ∈ q, isCJK c = true)) :
    ' ' ∉ merge_go prev slots := by
  induction slots generalizing prev with
  | nil => simp [merge_go]
  | cons part rest ih =>
    have hpart := hslot part (List.mem_cons_self part rest)
    have hrest : ∀ q ∈ rest, q = ['\n'] ∨ (q ≠ [] ∧ ∀ c ∈ q, isCJK c = true) :=
      fun q hq => hslot q (List.mem_cons_of_mem part hq)
    unfold merge_go
    rcases hpart with rfl | ⟨hne, hcjk⟩
    · rw [if_neg (by simp), if_pos rfl]
      intro hmem
      rcases List.mem_cons.1 hmem with h | h
      · cases h
      · exact ih (Or.inr (Or.inl rfl)) hrest h
    · rw [if_neg hne]
      by_cases hbr : part = ['\n']
      · subst hbr
        rw [if_pos rfl]
        intro hmem
        rcases List.mem_cons.1 hmem with h | h
        · cases h
        · exact ih (Or.inr (Or.inl rfl)) hrest h
      · rw [if_neg hbr]
        have hns : need_space prev part = false := by
          rcases hprev with rfl | rfl | ⟨pv, rfl, hpne, hpcjk⟩
          · rfl
          · simp [need_space]
          · have hpv1 : pv ≠ ['\n'] := by
              intro hh
              subst hh
              cases hpcjk '\n' (List.mem_singleton.2 rfl)
            have hpv2 : pv ≠ [' '] := by
              intro hh
              subst hh
              cases hpcjk ' ' (List.mem_singleton.2 rfl)
            cases hgl : pv.getLast? with
            | none => simp [need_space, hgl, hpv1, hpv2]
            | some pt =>
              have hptc : isCJK pt = true :=
                hpcjk pt (List.mem_of_mem_getLast? hgl)
              cases hhd : part.head? with
              | none => exact absurd (List.head?_eq_none_iff.1 hhd) hne
              | some ch =>
                have hchc : isCJK ch = true :=
                  hcjk ch (List.mem_of_mem_head? hhd)
                simp [need_space, hgl, hhd, hpv1, hpv2,
                  isCJK_not_merge_punct hptc, hptc, hchc]
        rw [hns]
        simp only [Bool.false_eq_true, if_false]
        intro hmem
        rcases List.mem_append.1 hmem with h | h
        · have := hcjk ' ' h
          cases this
        · exact ih (Or.inr (Or.inr ⟨part, rfl, hne, hcjk⟩)) hrest h

/-- C6: the merge loop inserts a space only when the previous fragment is not
a line break, does not end in terminal or clause punctuation, and the
boundary is not CJK-to-CJK; it never inserts a space between two CJK
characters (for all-CJK slots the merged output contains no space at all);
and reassembling the slots `他`, `很`, Break, `好` yields `他很\n好`. -/
theorem merge_never_spaces_cjk :
    (∀ pv part, need_space (some pv) part = true →
      pv ≠ ['\n'] ∧
      (∀ c, pv.getLast? = some c → isMergePunct c = false) ∧
      (∀ a b, pv.getLast? = some a → part.head? = some b →
        ¬(isCJK a = true ∧ isCJK b = true))) ∧
    (∀ slots, (∀ q ∈ slots, q = ['\n'] ∨ (q ≠ [] ∧ ∀ c ∈ q, isCJK c = true)) →
      ' ' ∉ merge_go none slots) ∧
    merge_parts [['他'], ['很'], ['\n'], ['好']] = ['他', '很', '\n', '好'] := by
  refine ⟨?_, fun slots h => merge_go_no_space (Or.inl rfl) h, by decide⟩
  intro pv part h
  simp only [need_space] at h
  by_cases h1 : pv = ['\n'] ∨ pv = [' ']
  · rw [if_pos h1] at h
    cases h
  · rw [if_neg h1] at h
    refine ⟨fun hh => h1 (Or.inl hh), ?_, ?_⟩
    · intro c hgl
      rw [hgl] at h
      dsimp only at h
      by_cases hm : isMergePunct c = true
      · rw [if_pos hm] at h
        cases h
      · exact Bool.eq_false_iff.mpr hm
    · intro a b hgl hhd hand
      rw [hgl] at h
      dsimp only at h
      rcases hand with ⟨ha, hb⟩
      by_cases hm : isMergePunct a = true
      · rw [if_pos hm] at h
        cases h
      · rw [if_neg hm, hhd] at h
        dsimp only at h
        rw [ha, hb] at h
        cases h

/-- Witness for C6: concrete instantiations of the two universal parts. -/
theorem merge_never_spaces_cjk_witness :
    (['a'] ≠ ['\n'] ∧
      (∀ c, (['a'] : List Char).getLast? = some c → isMergePunct c = false) ∧
      (∀ a b, (['a'] : List Char).getLast? = some a →
        (['b'] : List Char).head? = some b →
        ¬(isCJK a = true ∧ isCJK b = true))) ∧
    ' ' ∉ merge_go none [['他'], ['好']] :=
  ⟨merge_never_spaces_cjk.1 ['a'] ['b'] (by decide),
   merge_never_spaces_cjk.2.1 [['他'], ['好']] (by decide)⟩

/-! ### Claim C3: newline runs through segmentation and reassembly -/

/-- C3 counterexample: the input `"\na"` holds a run of one newline, and the
chunking does produce one Break chunk, but reassembly with identity outputs
strips the leading line break: the result is `"a"` with zero newlines. -/
theorem newline_run_lost_at_edge :
    List.count '\n' ('\n' :: ['a']) = 1 ∧
    List.count ['\n'] (chunk_text ('\n' :: ['a'])) = 1 ∧
    reassemble_id ('\n' :: ['a']) = ['a'] ∧
    List.count '\n' (reassemble_id ('\n' :: ['a'])) = 0 := by
  decide

theorem process_seg_chunks {seg0 ch : List Char} (h : ch ∈ process_seg seg0) :
    ch ≠ [] ∧ ∀ c ∈ ch, c ∈ seg0 := by
  unfold process_seg at h
  by_cases h0 : strip seg0 = []
  · rw [if_pos h0] at h
    cases h
  · rw [if_neg h0] at h
    dsimp only at h
    split at h
    · rcases List.mem_filter.1 h with ⟨hmem, hne⟩
      refine ⟨?_, fun c hc => strip_subset (mem_of_mem_split_after hmem hc)⟩
      intro hh
      subst hh
      simp [strip] at hne
    · split at h
      · rcases List.mem_filter.1 h with ⟨hmem, hne⟩
        refine ⟨?_, fun c hc => strip_subset (mem_of_mem_split_after hmem hc)⟩
        intro hh
        subst hh
        simp [strip] at hne
      · rcases List.mem_singleton.1 h with rfl
        exact ⟨h0, fun c hc => strip_subset hc⟩

theorem process_block_chunks {a ch : List Char} (h : ch ∈ process_block a) :
    ch ≠ [] ∧ ∀ c ∈ ch, c ∈ a := by
  unfold process_block at h
  rcases List.mem_flatten.1 h with ⟨piece, hp, hch⟩
  rcases List.mem_map.1 hp with ⟨seg, hseg, rfl⟩
  obtain ⟨hne, hsub⟩ := process_seg_chunks hch
  exact ⟨hne, fun c hc => mem_of_mem_split_after hseg (hsub c hc)⟩

theorem process_seg_covers {seg0 : List Char} {c : Char}
    (hc : c ∈ seg0) (hw : isWs c = false) : ∃ ch ∈ process_seg seg0, c ∈ ch := by
  have hcs : c ∈ strip seg0 := mem_strip_of_mem hc hw
  have h0 : strip seg0 ≠ [] := by
    intro hh
    rw [hh] at hcs
    cases hcs
  unfold process_seg
  rw [if_neg h0]
  dsimp only
  split
  · have : c ∈ (split_after isAnyComma (strip seg0)).flatten := by
      rw [split_after_flatten]
      exact hcs
    rcases List.mem_flatten.1 this with ⟨r, hr, hcr⟩
    refine ⟨r, List.mem_filter.2 ⟨hr, ?_⟩, hcr⟩
    simp only [ne_eq, decide_eq_true_eq]
    exact strip_ne_nil hcr hw
  · split
    · have : c ∈ (split_after (fun d => d = ',') (strip seg0)).flatten := by
        rw [split_after_flatten]
        exact hcs
      rcases List.mem_flatten.1 this with ⟨r, hr, hcr⟩
      refine ⟨r, List.mem_filter.2 ⟨hr, ?_⟩, hcr⟩
      simp only [ne_eq, decide_eq_true_eq]
      exact strip_ne_nil hcr hw
    · exact ⟨strip seg0, List.mem_singleton.2 rfl, hcs⟩

theorem process_block_covers {a : List Char} {c : Char}
    (hc : c ∈ a) (hw : isWs c = false) : ∃ ch ∈ process_block a, c ∈ ch := by
  have : c ∈ (split_after isSentTerm a).flatten := by
    rw [split_after_flatten]
    exact hc
  rcases List.mem_flatten.1 this with ⟨seg, hseg, hcseg⟩
  obtain ⟨ch, hch, hcch⟩ := process_seg_covers hcseg hw
  refine ⟨ch, ?_, hcch⟩
  unfold process_block
  exact List.mem_flatten.2 ⟨process_seg seg, List.mem_map.2 ⟨seg, hseg, rfl⟩, hch⟩

theorem process_block_nil : process_block [] = [] := rfl

theorem chunk_blocks_content_append :
    ∀ (a : List Char), '\n' ∉ a → ∀ acc r,
      chunk_blocks acc (a ++ '\n' :: r) =
        process_block (acc ++ a) ++ ['\n'] :: chunk_blocks [] r := by
  intro a
  induction a with
  | nil =>
    intro _ acc r
    simp [chunk_blocks]
  | cons c a' ih =>
    intro h acc r
    have hc : ¬(c = '\n') := fun hh => h (hh ▸ List.mem_cons_self _ _)
    have ha' : '\n' ∉ a' := fun hh => h (List.mem_cons_of_mem c hh)
    simp only [List.cons_append, chunk_blocks, List.append_eq, if_neg hc]
    rw [ih ha' (acc ++ [c]) r]
    simp [List.append_assoc]

theorem chunk_blocks_nl_run :
    ∀ (j : Nat) (b : List Char),
      chunk_blocks [] (List.replicate j '\n' ++ b) =
        List.replicate j ['\n'] ++ chunk_blocks [] b := by
  intro j
  induction j with
  | zero => intro b; simp
  | succ j ih =>
    intro b
    simp only [List.replicate_succ, List.cons_append, chunk_blocks, List.append_eq,
      eq_self_iff_true, if_true]
    rw [ih b, process_block_nil]
    simp

theorem chunk_text_decomp (a b : List Char) (k : Nat) (hk : 1 ≤ k)
    (ha_nl : '\n' ∉ a) (ha_cr : '\r' ∉ a) (hb_nl : '\n' ∉ b) (hb_cr : '\r' ∉ b) :
    chunk_text (a ++ List.replicate k '\n' ++ b) =
      process_block a ++ List.replicate k ['\n'] ++ process_block b := by
  obtain ⟨j, rfl⟩ : ∃ j, k = j + 1 := ⟨k - 1, by omega⟩
  have hcr : '\r' ∉ a ++ List.replicate (j + 1) '\n' ++ b := by
    intro hm
    rcases List.mem_append.1 hm with hm | hm
    · rcases List.mem_append.1 hm with hm | hm
      · exact ha_cr hm
      · have := List.eq_of_mem_replicate hm
        cases this
    · exact hb_cr hm
  unfold chunk_text
  rw [norm_eol_of_no_cr hcr]
  dsimp only
  have h1 : a ++ List.replicate (j + 1) '\n' ++ b =
      a ++ '\n' :: (List.replicate j '\n' ++ b) := by
    simp [List.replicate_succ]
  rw [h1, chunk_blocks_content_append a ha_nl [] _, chunk_blocks_nl_run j b,
    chunk_blocks_no_nl hb_nl []]
  simp only [List.nil_append]
  have h2 : process_block a ++ ['\n'] :: (List.replicate j ['\n'] ++ process_block b)
      = process_block a ++ List.replicate (j + 1) ['\n'] ++ process_block b := by
    simp [List.replicate_succ]
  rw [h2]
  rw [if_neg (by
    intro hh
    have : (['\n'] : List Char) ∈ ([] : List (List Char)) := by
      rw [← hh]
      refine List.mem_append.2 (Or.inl ?_)
      refine List.mem_append.2 (Or.inr ?_)
      exact List.mem_replicate.2 ⟨by omega, rfl⟩
    cases this)]

theorem count_break_chunks (a b : List Char) (k : Nat) (hk : 1 ≤ k)
    (ha_nl : '\n' ∉ a) (ha_cr : '\r' ∉ a) (hb_nl : '\n' ∉ b) (hb_cr : '\r' ∉ b) :
    List.count ['\n'] (chunk_text (a ++ List.replicate k '\n' ++ b)) = k := by
  rw [chunk_text_decomp a b k hk ha_nl ha_cr hb_nl hb_cr]
  rw [List.count_append, List.count_append]
  have hca : List.count ['\n'] (process_block a) = 0 := by
    rw [List.count_eq_zero]
    intro hm
    obtain ⟨_, hsub⟩ := process_block_chunks hm
    exact ha_nl (hsub '\n' (List.mem_singleton.2 rfl))
  have hcb : List.count ['\n'] (process_block b) = 0 := by
    rw [List.count_eq_zero]
    intro hm
    obtain ⟨_, hsub⟩ := process_block_chunks hm
    exact hb_nl (hsub '\n' (List.mem_singleton.2 rfl))
  rw [hca, hcb, List.count_replicate_self]
  omega

/-- The merge-loop state (`merged_parts[-1]`) after processing a list of
slots, starting from `st`. -/
def mstate (st : Option (List Char)) : List (List Char) → Option (List Char)
  | [] => st
  | q :: rest => mstate (if q = [] then st else some q) rest

theorem merge_go_append (xs ys : List (List Char)) :
    ∀ st, merge_go st (xs ++ ys) = merge_go st xs ++ merge_go (mstate st xs) ys := by
  induction xs with
  | nil => intro st; simp [merge_go, mstate]
  | cons q rest ih =>
    intro st
    simp only [List.cons_append, merge_go, mstate, List.append_eq]
    by_cases hq : q = []
    · rw [if_pos hq, if_pos hq, if_pos hq]
      exact ih st
    · rw [if_neg hq, if_neg hq, if_neg hq]
      by_cases hb : q = ['\n']
      · rw [if_pos hb, if_pos hb]
        rw [ih (some ['\n'])]
        simp [hb]
      · rw [if_neg hb, if_neg hb]
        rw [ih (some q)]
        simp [List.append_assoc]

theorem merge_go_breaks (k : Nat) (ys : List (List Char)) :
    ∀ st, merge_go st (List.replicate (k + 1) ['\n'] ++ ys) =
      List.replicate (k + 1) '\n' ++ merge_go (some ['\n']) ys := by
  induction k with
  | zero =>
    intro st
    simp [merge_go]
  | succ k ih =>
    intro st
    rw [List.replicate_succ (n := k + 1), List.cons_append]
    have h1 : merge_go st (['\n'] :: (List.replicate (k + 1) ['\n'] ++ ys)) =
        '\n' :: merge_go (some ['\n']) (List.replicate (k + 1) ['\n'] ++ ys) := by
      simp [merge_go]
    rw [h1, ih (some ['\n'])]
    simp [List.replicate_succ]

theorem merge_go_no_nl {parts : List (List Char)}
    (h : ∀ q ∈ parts, '\n' ∉ q) : ∀ st, '\n' ∉ merge_go st parts := by
  induction parts with
  | nil => intro st; simp [merge_go]
  | cons q rest ih =>
    intro st hm
    have hq := h q (List.mem_cons_self q rest)
    have hrest : ∀ r ∈ rest, '\n' ∉ r := fun r hr => h r (List.mem_cons_of_mem q hr)
    unfold merge_go at hm
    by_cases h0 : q = []
    · rw [if_pos h0] at hm
      exact ih hrest st hm
    · rw [if_neg h0] at hm
      by_cases hb : q = ['\n']
      · exact hq (hb ▸ List.mem_singleton.2 rfl)
      · rw [if_neg hb] at hm
        rcases List.mem_append.1 hm with hm | hm
        · by_cases hns : need_space st q
          · rw [if_pos hns] at hm
            rcases List.mem_cons.1 hm with hm | hm
            · cases hm
            · exact hq hm
          · rw [if_neg hns] at hm
            exact hq hm
        · exact ih hrest (some q) hm

theorem merge_go_mem {parts : List (List Char)} {q : List Char} {c : Char}
    (hqp : q ∈ parts) (hqn : q ≠ []) (hc : c ∈ q) :
    ∀ st, c ∈ merge_go st parts := by
  induction parts with
  | nil => cases hqp
  | cons r rest ih =>
    intro st
    unfold merge_go
    rcases List.mem_cons.1 hqp with rfl | hmem
    · rw [if_neg hqn]
      by_cases hb : q = ['\n']
      · rw [if_pos hb]
        subst hb
        rcases List.mem_singleton.1 hc with rfl
        exact List.mem_cons_self _ _
      · rw [if_neg hb]
        refine List.mem_append.2 (Or.inl ?_)
        by_cases hns : need_space st q
        · rw [if_pos hns]
          exact List.mem_cons_of_mem _ hc
        · rw [if_neg hns]
          exact hc
    · by_cases h0 : r = []
      · rw [if_pos h0]
        exact ih hmem st
      · rw [if_neg h0]
        by_cases hb : r = ['\n']
        · rw [if_pos hb]
          exact List.mem_cons_of_mem _ (ih hmem (some ['\n']))
        · rw [if_neg hb]
          exact List.mem_append.2 (Or.inr (ih hmem (some r)))

theorem cb_append_nl :
    ∀ x y : List Char,
      cb_main (x ++ '\n' :: y) = cb_main x ++ '\n' :: cb_main y ∧
      (∀ b, cb_blank b (x ++ '\n' :: y) = cb_blank b x ++ '\n' :: cb_main y) ∧
      cb_run (x ++ '\n' :: y) = cb_run x ++ '\n' :: cb_main y := by
  intro x
  induction x with
  | nil =>
    intro y
    refine ⟨?_, fun b => ?_, ?_⟩ <;>
      simp [cb_main, cb_blank, cb_run, isBlank]
  | cons c x' ih =>
    intro y
    obtain ⟨ih1, ih2, ih3⟩ := ih y
    refine ⟨?_, fun b => ?_, ?_⟩
    · by_cases hb : isBlank c = true
      · simp only [List.cons_append, List.append_eq, cb_main, if_pos hb]
        exact ih2 c
      · simp only [List.cons_append, List.append_eq, cb_main, if_neg hb]
        rw [ih1]
    · by_cases hb : isBlank c = true
      · simp only [List.cons_append, List.append_eq, cb_blank, if_pos hb]
        rw [ih3]
      · simp only [List.cons_append, List.append_eq, cb_blank, if_neg hb]
        rw [ih1]
    · by_cases hb : isBlank c = true
      · simp only [List.cons_append, List.append_eq, cb_run, if_pos hb]
        exact ih3
      · simp only [List.cons_append, List.append_eq, cb_run, if_neg hb]
        rw [ih1]

theorem cb_mem :
    ∀ (x : List Char) (c : Char),
      (c ∈ cb_main x → c ∈ x ∨ c = ' ') ∧
      (∀ b, c ∈ cb_blank b x → c ∈ x ∨ c = b ∨ c = ' ') ∧
      (c ∈ cb_run x → c ∈ x ∨ c = ' ') := by
  intro x
  induction x with
  | nil =>
    intro c
    refine ⟨?_, fun b hb => ?_, ?_⟩ <;> simp_all [cb_main, cb_blank, cb_run]
  | cons d x' ih =>
    intro c
    obtain ⟨ih1, ih2, ih3⟩ := ih c
    refine ⟨?_, fun b hb => ?_, ?_⟩
    · intro h
      by_cases hd : isBlank d = true
      · rw [cb_main, if_pos hd] at h
        rcases ih2 d h with h | h | h
        · exact Or.inl (List.mem_cons_of_mem d h)
        · exact Or.inl (h ▸ List.mem_cons_self d x')
        · exact Or.inr h
      · rw [cb_main, if_neg hd] at h
        rcases List.mem_cons.1 h with rfl | h
        · exact Or.inl (List.mem_cons_self c x')
        · rcases ih1 h with h | h
          · exact Or.inl (List.mem_cons_of_mem d h)
          · exact Or.inr h
    · by_cases hd : isBlank d = true
      · rw [cb_blank, if_pos hd] at hb
        rcases List.mem_cons.1 hb with rfl | hb
        · exact Or.inr (Or.inr rfl)
        · rcases ih3 hb with h | h
          · exact Or.inl (List.mem_cons_of_mem d h)
          · exact Or.inr (Or.inr h)
      · rw [cb_blank, if_neg hd] at hb
        rcases List.mem_cons.1 hb with rfl | hb
        · exact Or.inr (Or.inl rfl)
        · rcases List.mem_cons.1 hb with rfl | hb
          · exact Or.inl (List.mem_cons_self c x')
          · rcases ih1 hb with h | h
            · exact Or.inl (List.mem_cons_of_mem d h)
            · exact Or.inr (Or.inr h)
    · intro h
      by_cases hd : isBlank d = true
      · rw [cb_run, if_pos hd] at h
        rcases ih3 h with h | h
        · exact Or.inl (List.mem_cons_of_mem d h)
        · exact Or.inr h
      · rw [cb_run, if_neg hd] at h
        rcases List.mem_cons.1 h with rfl | h
        · exact Or.inl (List.mem_cons_self c x')
        · rcases ih1 h with h | h
          · exact Or.inl (List.mem_cons_of_mem d h)
          · exact Or.inr h

theorem cb_mem_keep :
    ∀ (x : List Char) (c : Char), isBlank c = false →
      (c ∈ x → c ∈ cb_main x) ∧
      (∀ b, c ∈ x → c ∈ cb_blank b x) ∧
      (c ∈ x → c ∈ cb_run x) := by
  intro x
  induction x with
  | nil =>
    intro c _
    refine ⟨?_, fun b hb => ?_, ?_⟩ <;> simp_all
  | cons d x' ih =>
    intro c hc
    obtain ⟨ih1, ih2, ih3⟩ := ih c hc
    have hdc : c = d → isBlank d = false := fun hh => hh ▸ hc
    refine ⟨?_, fun b hb => ?_, ?_⟩
    · intro h
      by_cases hd : isBlank d = true
      · rw [cb_main, if_pos hd]
        rcases List.mem_cons.1 h with rfl | h
        · rw [hdc rfl] at hd
          cases hd
        · exact ih2 d h
      · rw [cb_main, if_neg hd]
        rcases List.mem_cons.1 h with rfl | h
        · exact List.mem_cons_self c _
        · exact List.mem_cons_of_mem d (ih1 h)
    · by_cases hd : isBlank d = true
      · rw [cb_blank, if_pos hd]
        rcases List.mem_cons.1 hb with rfl | h
        · rw [hdc rfl] at hd
          cases hd
        · exact List.mem_cons_of_mem ' ' (ih3 h)
      · rw [cb_blank, if_neg hd]
        rcases List.mem_cons.1 hb with rfl | h
        · exact List.mem_cons_of_mem b (List.mem_cons_self c _)
        · exact List.mem_cons_of_mem b (List.mem_cons_of_mem d (ih1 h))
    · intro h
      by_cases hd : isBlank d = true
      · rw [cb_run, if_pos hd]
        rcases List.mem_cons.1 h with rfl | h
        · rw [hdc rfl] at hd
          cases hd
        · exact ih3 h
      · rw [cb_run, if_neg hd]
        rcases List.mem_cons.1 h with rfl | h
        · exact List.mem_cons_self c _
        · exact List.mem_cons_of_mem d (ih1 h)

theorem cb_main_nl_run :
    ∀ (j : Nat) (y : List Char),
      cb_main (List.replicate j '\n' ++ y) = List.replicate j '\n' ++ cb_main y := by
  intro j
  induction j with
  | zero => intro y; simp
  | succ j ih =>
    intro y
    rw [List.replicate_succ, List.cons_append, cb_main,
      if_neg (by simp [isBlank] : ¬isBlank '\n' = true), ih y]
    simp [List.replicate_succ]

/-- The image of a newline-free span under `sp_nl` when a newline follows it:
pending spaces at the end of the span are dropped. -/
def sp_before_nl (pend : Nat) : List Char → List Char
  | [] => []
  | c :: t =>
    if c = ' ' then sp_before_nl (pend + 1) t
    else List.replicate pend ' ' ++ c :: sp_before_nl 0 t

theorem sp_nl_append :
    ∀ (x : List Char), '\n' ∉ x → ∀ (pend : Nat) (y : List Char),
      sp_nl pend (x ++ '\n' :: y) = sp_before_nl pend x ++ '\n' :: sp_nl 0 y := by
  intro x
  induction x with
  | nil =>
    intro _ pend y
    simp [sp_nl, sp_before_nl]
  | cons c x' ih =>
    intro h pend y
    have hc : ¬(c = '\n') := fun hh => h (hh ▸ List.mem_cons_self _ _)
    have hx' : '\n' ∉ x' := fun hh => h (List.mem_cons_of_mem c hh)
    by_cases hsp : c = ' '
    · simp only [List.cons_append, sp_nl, sp_before_nl, if_pos hsp]
      exact ih hx' (pend + 1) y
    · simp only [List.cons_append, List.append_eq, sp_nl, sp_before_nl,
        if_neg hsp, if_neg hc]
      rw [ih hx' 0 y]
      simp [List.append_assoc]

theorem sp_nl_nl_run :
    ∀ (j : Nat) (y : List Char),
      sp_nl 0 (List.replicate j '\n' ++ y) = List.replicate j '\n' ++ sp_nl 0 y := by
  intro j
  induction j with
  | zero => intro y; simp
  | succ j ih =>
    intro y
    rw [List.replicate_succ, List.cons_append, sp_nl]
    rw [if_neg (by decide), if_pos rfl, ih y]
    simp [List.replicate_succ]

theorem sp_nl_mem {x : List Char} {c : Char} :
    ∀ pend, c ∈ sp_nl pend x → c ∈ x ∨ c = ' ' := by
  induction x with
  | nil =>
    intro pend h
    rw [sp_nl] at h
    exact Or.inr (List.eq_of_mem_replicate h)
  | cons d x' ih =>
    intro pend h
    rw [sp_nl] at h
    by_cases hd : d = ' '
    · rw [if_pos hd] at h
      rcases ih (pend + 1) h with h | h
      · exact Or.inl (List.mem_cons_of_mem d h)
      · exact Or.inr h
    · rw [if_neg hd] at h
      by_cases hn : d = '\n'
      · rw [if_pos hn] at h
        rcases List.mem_cons.1 h with rfl | h
        · exact Or.inl (hn ▸ List.mem_cons_self d x')
        · rcases ih 0 h with h | h
          · exact Or.inl (List.mem_cons_of_mem d h)
          · exact Or.inr h
      · rw [if_neg hn] at h
        rcases List.mem_append.1 h with h | h
        · exact Or.inr (List.eq_of_mem_replicate h)
        · rcases List.mem_cons.1 h with rfl | h
          · exact Or.inl (List.mem_cons_self c x')
          · rcases ih 0 h with h | h
            · exact Or.inl (List.mem_cons_of_mem d h)
            · exact Or.inr h

theorem sp_nl_keep {x : List Char} {c : Char} (hcs : ¬(c = ' ')) :
    ∀ pend, c ∈ x → c ∈ sp_nl pend x := by
  induction x with
  | nil =>
    intro pend h
    cases h
  | cons d x' ih =>
    intro pend h
    rw [sp_nl]
    by_cases hd : d = ' '
    · rw [if_pos hd]
      rcases List.mem_cons.1 h with rfl | h
      · exact absurd hd hcs
      · exact ih (pend + 1) h
    · rw [if_neg hd]
      by_cases hn : d = '\n'
      · rw [if_pos hn]
        rcases List.mem_cons.1 h with rfl | h
        · exact hn ▸ List.mem_cons_self _ _
        · exact List.mem_cons_of_mem _ (ih 0 h)
      · rw [if_neg hn]
        refine List.mem_append.2 (Or.inr ?_)
        rcases List.mem_cons.1 h with rfl | h
        · exact List.mem_cons_self _ _
        · exact List.mem_cons_of_mem _ (ih 0 h)

theorem sp_before_nl_mem {x : List Char} {c : Char} :
    ∀ pend, c ∈ sp_before_nl pend x → c ∈ x ∨ c = ' ' := by
  induction x with
  | nil =>
    intro pend h
    cases h
  | cons d x' ih =>
    intro pend h
    rw [sp_before_nl] at h
    by_cases hd : d = ' '
    · rw [if_pos hd] at h
      rcases ih (pend + 1) h with h | h
      · exact Or.inl (List.mem_cons_of_mem d h)
      · exact Or.inr h
    · rw [if_neg hd] at h
      rcases List.mem_append.1 h with h | h
      · exact Or.inr (List.eq_of_mem_replicate h)
      · rcases List.mem_cons.1 h with rfl | h
        · exact Or.inl (List.mem_cons_self c x')
        · rcases ih 0 h with h | h
          · exact Or.inl (List.mem_cons_of_mem d h)
          · exact Or.inr h

theorem sp_before_nl_keep {x : List Char} {c : Char} (hcs : ¬(c = ' ')) :
    ∀ pend, c ∈ x → c ∈ sp_before_nl pend x := by
  induction x with
  | nil =>
    intro pend h
    cases h
  | cons d x' ih =>
    intro pend h
    rw [sp_before_nl]
    by_cases hd : d = ' '
    · rw [if_pos hd]
      rcases List.mem_cons.1 h with rfl | h
      · exact absurd hd hcs
      · exact ih (pend + 1) h
    · rw [if_neg hd]
      refine List.mem_append.2 (Or.inr ?_)
      rcases List.mem_cons.1 h with rfl | h
      · exact List.mem_cons_self _ _
      · exact List.mem_cons_of_mem _ (ih 0 h)

theorem nl_spaces_content :
    ∀ (x : List Char), '\n' ∉ x → ∀ y,
      nl_spaces false (x ++ y) = x ++ nl_spaces false y := by
  intro x
  induction x with
  | nil => intro _ y; simp
  | cons c x' ih =>
    intro h y
    have hc : ¬(c = '\n') := fun hh => h (hh ▸ List.mem_cons_self _ _)
    have hx' : '\n' ∉ x' := fun hh => h (List.mem_cons_of_mem c hh)
    rw [List.cons_append, nl_spaces]
    rw [if_neg (by simp), if_neg hc, ih hx' y]
    simp

theorem nl_spaces_nl_run :
    ∀ (j : Nat) (y : List Char),
      nl_spaces true (List.replicate j '\n' ++ y) =
        List.replicate j '\n' ++ nl_spaces true y := by
  intro j
  induction j with
  | zero => intro y; simp
  | succ j ih =>
    intro y
    rw [List.replicate_succ, List.cons_append, nl_spaces]
    rw [if_neg (by simp), if_pos rfl, ih y]
    simp [List.replicate_succ]

theorem nl_spaces_mem {x : List Char} {c : Char} :
    ∀ b, c ∈ nl_spaces b x → c ∈ x := by
  induction x with
  | nil =>
    intro b h
    cases h
  | cons d x' ih =>
    intro b h
    rw [nl_spaces] at h
    by_cases h1 : (b && decide (d = ' ')) = true
    · rw [if_pos h1] at h
      exact List.mem_cons_of_mem d (ih true h)
    · rw [if_neg h1] at h
      by_cases hn : d = '\n'
      · rw [if_pos hn] at h
        rcases List.mem_cons.1 h with rfl | h
        · exact hn ▸ List.mem_cons_self d x'
        · exact List.mem_cons_of_mem d (ih true h)
      · rw [if_neg hn] at h
        rcases List.mem_cons.1 h with rfl | h
        · exact List.mem_cons_self c x'
        · exact List.mem_cons_of_mem d (ih false h)

theorem nl_spaces_keep {x : List Char} {c : Char} (hcs : ¬(c = ' ')) :
    ∀ b, c ∈ x → c ∈ nl_spaces b x := by
  induction x with
  | nil =>
    intro b h
    cases h
  | cons d x' ih =>
    intro b h
    rw [nl_spaces]
    by_cases h1 : (b && decide (d = ' ')) = true
    · rw [if_pos h1]
      rcases List.mem_cons.1 h with rfl | h
      · exact absurd (by simpa using (Bool.and_eq_true_iff.1 h1).2) hcs
      · exact ih true h
    · rw [if_neg h1]
      by_cases hn : d = '\n'
      · rw [if_pos hn]
        rcases List.mem_cons.1 h with rfl | h
        · exact hn ▸ List.mem_cons_self _ _
        · exact List.mem_cons_of_mem _ (ih true h)
      · rw [if_neg hn]
        rcases List.mem_cons.1 h with rfl | h
        · exact List.mem_cons_self _ _
        · exact List.mem_cons_of_mem _ (ih false h)

theorem isBlank_ws {c : Char} (h : isBlank c = true) : isWs c = true := by
  have h' : c = ' ' ∨ c = '\t' := by simpa [isBlank] using h
  rcases h' with rfl | rfl <;> decide

theorem dropWhile_append_keep {x : List Char} (y : List Char)
    (hw : ∃ c ∈ x, isWs c = false) :
    List.dropWhile isWs (x ++ y) = List.dropWhile isWs x ++ y := by
  induction x with
  | nil =>
    obtain ⟨c, hc, _⟩ := hw
    cases hc
  | cons d x' ih =>
    by_cases hd : isWs d = true
    · rw [List.cons_append, List.dropWhile_cons_of_pos hd,
        List.dropWhile_cons_of_pos hd]
      refine ih ?_
      obtain ⟨c, hc, hcw⟩ := hw
      rcases List.mem_cons.1 hc with rfl | hc
      · rw [hd] at hcw
        cases hcw
      · exact ⟨c, hc, hcw⟩
    · rw [List.cons_append, List.dropWhile_cons_of_neg hd,
        List.dropWhile_cons_of_neg hd]
      simp

theorem count_nl_zero {x : List Char} (h : '\n' ∉ x) :
    List.count '\n' x = 0 :=
  List.count_eq_zero.2 h

theorem count_nl_strip_mid {A B : List Char} (k : Nat)
    (hA_nl : '\n' ∉ A) (hB_nl : '\n' ∉ B)
    (hA_w : ∃ c ∈ A, isWs c = false) (hB_w : ∃ c ∈ B, isWs c = false) :
    List.count '\n' (strip (A ++ List.replicate k '\n' ++ B)) = k := by
  unfold strip
  rw [List.append_assoc, dropWhile_append_keep _ hA_w]
  rw [List.reverse_append, List.reverse_append, List.reverse_replicate]
  have hBrev : ∃ c ∈ B.reverse, isWs c = false := by
    obtain ⟨c, hc, hcw⟩ := hB_w
    exact ⟨c, List.mem_reverse.2 hc, hcw⟩
  rw [List.append_assoc, dropWhile_append_keep _ hBrev]
  rw [List.count_reverse, List.count_append, List.count_append,
    List.count_replicate_self]
  have h1 : List.count '\n' (List.dropWhile isWs B.reverse) = 0 := by
    refine count_nl_zero ?_
    intro hm
    exact hB_nl (List.mem_reverse.1 ((List.dropWhile_sublist _).mem hm))
  have h2 : List.count '\n' (List.dropWhile isWs A).reverse = 0 := by
    refine count_nl_zero ?_
    intro hm
    exact hA_nl ((List.dropWhile_sublist _).mem (List.mem_reverse.1 hm))
  rw [h1, h2]
  omega

/-- C3 amended: for an interior newline run — input `a ++ "\n"*k ++ b` with
`a`, `b` free of line breaks and each containing a non-whitespace character —
segmentation produces exactly `k` Break chunks and reassembly with identity
chunk outputs reproduces exactly `k` line breaks; a run at the very start or
end of the input is trimmed away by the final strip instead. -/
theorem interior_newline_runs (a b : List Char) (k : Nat) (hk : 1 ≤ k)
    (ha_nl : '\n' ∉ a) (ha_cr : '\r' ∉ a) (hb_nl : '\n' ∉ b) (hb_cr : '\r' ∉ b)
    (ha_w : ∃ c ∈ a, isWs c = false) (hb_w : ∃ c ∈ b, isWs c = false) :
    List.count ['\n'] (chunk_text (a ++ List.replicate k '\n' ++ b)) = k ∧
    List.count '\n' (reassemble_id (a ++ List.replicate k '\n' ++ b)) = k := by
  refine ⟨count_break_chunks a b k hk ha_nl ha_cr hb_nl hb_cr, ?_⟩
  obtain ⟨j, rfl⟩ : ∃ j, k = j + 1 := ⟨k - 1, by omega⟩
  unfold reassemble_id merge_parts
  rw [chunk_text_decomp a b (j + 1) hk ha_nl ha_cr hb_nl hb_cr]
  set PA := process_block a with hPA
  set PB := process_block b with hPB
  set A0 := merge_go none PA with hA0
  set B0 := merge_go (some ['\n']) PB with hB0
  have hPAnl : ∀ q ∈ PA, '\n' ∉ q := by
    intro q hq hm
    exact ha_nl ((process_block_chunks hq).2 '\n' hm)
  have hPBnl : ∀ q ∈ PB, '\n' ∉ q := by
    intro q hq hm
    exact hb_nl ((process_block_chunks hq).2 '\n' hm)
  have hA0nl : '\n' ∉ A0 := merge_go_no_nl hPAnl none
  have hB0nl : '\n' ∉ B0 := merge_go_no_nl hPBnl (some ['\n'])
  obtain ⟨wa, hwa, hwaw⟩ := ha_w
  obtain ⟨wb, hwb, hwbw⟩ := hb_w
  obtain ⟨cha, hcha, hwcha⟩ := process_block_covers hwa hwaw
  obtain ⟨chb, hchb, hwchb⟩ := process_block_covers hwb hwbw
  have hA0w : wa ∈ A0 :=
    merge_go_mem hcha (process_block_chunks hcha).1 hwcha none
  have hB0w : wb ∈ B0 :=
    merge_go_mem hchb (process_block_chunks hchb).1 hwchb (some ['\n'])
  have hwa_nb : isBlank wa = false := by
    cases hx : isBlank wa
    · rfl
    · rw [isBlank_ws hx] at hwaw
      cases hwaw
  have hwb_nb : isBlank wb = false := by
    cases hx : isBlank wb
    · rfl
    · rw [isBlank_ws hx] at hwbw
      cases hwbw
  have hwa_sp : ¬(wa = ' ') := by
    intro hh
    subst hh
    cases hwaw
  have hwb_sp : ¬(wb = ' ') := by
    intro hh
    subst hh
    cases hwbw
  set A1 := cb_main A0 with hA1
  set B1 := cb_main B0 with hB1
  have hA1nl : '\n' ∉ A1 := by
    intro hm
    rcases (cb_mem A0 '\n').1 hm with hm | hm
    · exact hA0nl hm
    · cases hm
  have hB1nl : '\n' ∉ B1 := by
    intro hm
    rcases (cb_mem B0 '\n').1 hm with hm | hm
    · exact hB0nl hm
    · cases hm
  have hA1w : wa ∈ A1 := (cb_mem_keep A0 wa hwa_nb).1 hA0w
  have hB1w : wb ∈ B1 := (cb_mem_keep B0 wb hwb_nb).1 hB0w
  set A2 := sp_before_nl 0 A1 with hA2
  set B2 := sp_nl 0 B1 with hB2
  have hA2nl : '\n' ∉ A2 := by
    intro hm
    rcases sp_before_nl_mem 0 hm with hm | hm
    · exact hA1nl hm
    · cases hm
  have hB2nl : '\n' ∉ B2 := by
    intro hm
    rcases sp_nl_mem 0 hm with hm | hm
    · exact hB1nl hm
    · cases hm
  have hA2w : wa ∈ A2 := sp_before_nl_keep hwa_sp 0 hA1w
  have hB2w : wb ∈ B2 := sp_nl_keep hwb_sp 0 hB1w
  set B3 := nl_spaces true B2 with hB3
  have hB3nl : '\n' ∉ B3 := fun hm => hB2nl (nl_spaces_mem true hm)
  have hB3w : wb ∈ B3 := nl_spaces_keep hwb_sp true hB2w
  have emerge : merge_go none (PA ++ List.replicate (j + 1) ['\n'] ++ PB)
      = A0 ++ ('\n' :: (List.replicate j '\n' ++ B0)) := by
    rw [List.append_assoc,
      merge_go_append PA (List.replicate (j + 1) ['\n'] ++ PB) none,
      merge_go_breaks j PB (mstate none PA)]
    simp [List.replicate_succ]
  have ecb : cb_main (A0 ++ ('\n' :: (List.replicate j '\n' ++ B0)))
      = A1 ++ ('\n' :: (List.replicate j '\n' ++ B1)) := by
    rw [(cb_append_nl A0 (List.replicate j '\n' ++ B0)).1, cb_main_nl_run j B0]
  have esp : sp_nl 0 (A1 ++ ('\n' :: (List.replicate j '\n' ++ B1)))
      = A2 ++ ('\n' :: (List.replicate j '\n' ++ B2)) := by
    rw [sp_nl_append A1 hA1nl 0 (List.replicate j '\n' ++ B1), sp_nl_nl_run j B1]
  have enl : nl_spaces false (A2 ++ ('\n' :: (List.replicate j '\n' ++ B2)))
      = A2 ++ ('\n' :: (List.replicate j '\n' ++ B3)) := by
    rw [nl_spaces_content A2 hA2nl ('\n' :: (List.replicate j '\n' ++ B2))]
    have h1 : nl_spaces false ('\n' :: (List.replicate j '\n' ++ B2))
        = '\n' :: nl_spaces true (List.replicate j '\n' ++ B2) := by
      rw [nl_spaces]
      rw [if_neg (by simp), if_pos rfl]
    rw [h1, nl_spaces_nl_run j B2]
  rw [emerge, ecb, esp, enl]
  have eshape : A2 ++ ('\n' :: (List.replicate j '\n' ++ B3))
      = A2 ++ List.replicate (j + 1) '\n' ++ B3 := by
    simp [List.replicate_succ]
  rw [eshape]
  exact count_nl_strip_mid (j + 1) hA2nl hB3nl ⟨wa, hA2w, hwaw⟩ ⟨wb, hB3w, hwbw⟩

/-- Witness for C3 at `"x" ++ "\n\n" ++ "y"`. -/
theorem interior_newline_runs_witness :
    List.count ['\n'] (chunk_text ('x' :: List.replicate 2 '\n' ++ ['y'])) = 2 ∧
    List.count '\n' (reassemble_id ('x' :: List.replicate 2 '\n' ++ ['y'])) = 2 :=
  interior_newline_runs ['x'] ['y'] 2 (by decide) (by decide) (by decide)
    (by decide) (by decide) ⟨'x', by decide, by decide⟩ ⟨'y', by decide, by decide⟩

/-! ### Postprocessor (`_postprocess_translation`, lines 499-540) -/

/-- Replace the non-breaking space and the subword marker glyph `▁` by a
plain space (lines 501-502). -/
def sub_mark (c : Char) : Char :=
  if c = '\xA0' ∨ c = '▁' then ' ' else c

/-- `text.replace("??", "")`: delete non-overlapping `??` pairs, leftmost
first (line 504). -/
def del_qq : List Char → List Char
  | [] => []
  | [c] => [c]
  | c :: d :: t =>
    if c = '?' ∧ d = '?' then del_qq t
    else c :: del_qq (d :: t)

/-- The full-width conversions `, ? ! ; :` → `，？！；：` of the CJK branch
(line 508); the five replaced characters are disjoint from every replacement,
so the five sequential `str.replace` calls equal one character map. -/
def zh_punct (c : Char) : Char :=
  if c = ',' then '，'
  else if c = '?' then '？'
  else if c = '!' then '！'
  else if c = ';' then '；'
  else if c = ':' then '：'
  else c

/-- `re.sub(r"(?<!\.)\.(?!\.)", "。", ...)`: a lone dot (looking at the
original neighbours) becomes the CJK full stop (line 509). -/
def dot2cjk (prev : Option Char) : List Char → List Char
  | [] => []
  | c :: t =>
    (if c = '.' ∧ prev ≠ some '.' ∧ t.head? ≠ some '.' then '。' else c) ::
      dot2cjk (some c) t

/-- One `str.replace(pat, repl)` with non-empty pattern `p :: ps`:
non-overlapping leftmost occurrences are replaced and scanning continues
after the replacement.  `fuel` only drives structural recursion: every step
consumes at least one input character, so starting it at the input length
never exhausts it. -/
def replace_all_go (p : Char) (ps repl : List Char) : Nat → List Char → List Char
  | 0, l => l
  | _, [] => []
  | fuel + 1, c :: t =>
    if c = p ∧ ps.isPrefixOf t then
      repl ++ replace_all_go p ps repl fuel (t.drop ps.length)
    else c :: replace_all_go p ps repl fuel t

/-- `str.replace` (the empty pattern never occurs in the embedded tables). -/
def replace_all (pat repl : List Char) (l : List Char) : List Char :=
  match pat with
  | [] => l
  | p :: ps => replace_all_go p ps repl l.length l

/-- The ordered domain-terminology table of the CJK branch (lines 510-524). -/
def term_map : List (List Char × List Char) := [
  ( r"变量位移活塞".toList, r"变量柱塞泵".toList ),
  ( r"可变位移活塞".toList, r"变量柱塞泵".toList ),
  ( r"可变位移活塞泵".toList, r"变量柱塞泵".toList ),
  ( r"变量位移活塞泵".toList, r"变量柱塞泵".toList ),
  ( r"反响".toList, r"齿隙".toList ),
  ( r"侧隙".toList, r"齿隙".toList ),
  ( r"表面修饰".toList, r"表面粗糙度".toList ),
  ( r"表面光洁度".toList, r"表面粗糙度".toList ),
  ( r"公差".toList, r"公差".toList ),
  ( r"tolerances".toList, r"公差".toList ),
  ( r"柱塞".toList, r"柱塞".toList ),
  ( r"活塞".toList, r"柱塞".toList ),
  ( r"泵".toList, r"泵".toList ) ]

/-- Apply the terminology substitutions in table order (lines 525-526). -/
def apply_term_map (l : List Char) : List Char :=
  term_map.foldl (fun acc pr => replace_all pr.1 pr.2 acc) l

/-- `re.sub(r"(?<=[一-鿿])\s+(?=[一-鿿])", "", ...)`: a whitespace run
strictly between two CJK ideographs is removed; `prevCJK` records whether the
character before the pending run is CJK, `pend` is the run read so far
(lines 527 and 531). -/
def cjk_ws (prevCJK : Bool) (pend : List Char) : List Char → List Char
  | [] => pend
  | c :: t =>
    if isWs c then
      if prevCJK then cjk_ws prevCJK (pend ++ [c]) t
      else pend ++ c :: cjk_ws false [] t
    else if isCJK c then
      if prevCJK ∧ pend ≠ [] then c :: cjk_ws true [] t
      else pend ++ c :: cjk_ws true [] t
    else pend ++ c :: cjk_ws false [] t

/-- `re.sub(r"\s+([punct])", r"\1", ...)`: a whitespace run directly before a
character of class `f` is removed (lines 528 and 530). -/
def ws_before (f : Char → Bool) (pend : List Char) : List Char → List Char
  | [] => pend
  | c :: t =>
    if isWs c then ws_before f (pend ++ [c]) t
    else if f c then c :: ws_before f [] t
    else pend ++ c :: ws_before f [] t

/-- `re.sub(r"([punct])\s+", r"\1", ...)`: a whitespace run directly after a
character of class `f` is removed (line 529). -/
def punct_ws (f : Char → Bool) (after_p : Bool) : List Char → List Char
  | [] => []
  | c :: t =>
    if after_p && isWs c then punct_ws f true t
    else if f c then c :: punct_ws f true t
    else c :: punct_ws f false t

/-- A two-character `str.replace`, used for the trailing
`"， " → "，"`-style replaces (lines 532-539). -/
def repl2 (x y : Char) (r : List Char) : List Char → List Char
  | [] => []
  | [c] => [c]
  | c :: d :: t =>
    if c = x ∧ d = y then r ++ repl2 x y r t
    else c :: repl2 x y r (d :: t)

/-- Full-width punctuation class `，。！？；：、` of lines 528-529. -/
def isFullPunct (c : Char) : Bool :=
  c = '，' || c = '。' || c = '！' || c = '？' || c = '；' || c = '：' || c = '、'

/-- Latin punctuation class `,.;:!?` of line 530. -/
def isLatinPunct (c : Char) : Bool :=
  c = ',' || c = '.' || c = ';' || c = ':' || c = '!' || c = '?'

/-- The six sequential full-punctuation-plus-space replaces of lines
532-539, applied in source order. -/
def fullpunct_space (l : List Char) : List Char :=
  repl2 '：' ' ' ['：'] (repl2 '；' ' ' ['；'] (repl2 '！' ' ' ['！']
    (repl2 '？' ' ' ['？'] (repl2 '。' ' ' ['。'] (repl2 '，' ' ' ['，'] l)))))

/-- `CoreEngine._postprocess_translation`: artifact removal, blank collapse,
script-aware punctuation and terminology normalization, CJK spacing rules,
and final trim (lines 499-540). -/
def postprocess_translation (text : List Char) : List Char :=
  let t1 := del_qq ((text.map sub_mark).filter (fun c => c ≠ '⁇'))
  let t2 := cb_main t1
  let hz := t2.any isCJK
  let t3 := if hz then apply_term_map (dot2cjk none (t2.map zh_punct)) else t2
  let t4 := cjk_ws false [] t3
  let t5 := ws_before isFullPunct [] t4
  let t6 := punct_ws isFullPunct false t5
  let t7 := ws_before isLatinPunct [] t6
  let t8 := cjk_ws false [] t7
  let t9 := fullpunct_space t8
  strip t9

/-- A CJK input on which the postprocessor is not idempotent: the CJK
whitespace removal creates the terminology key `活塞`, which only the next
pass rewrites to `柱塞`. -/
def piston_spaced : List Char := [ '活', ' ', '塞' ]

/-- C7 counterexample: the output of the postprocessor is not a fixed point:
`postprocess("活 塞") = "活塞"` but `postprocess("活塞") = "柱塞"`. -/
theorem postprocess_not_idempotent :
    postprocess_translation piston_spaced = [ '活', '塞' ] ∧
    postprocess_translation (postprocess_translation piston_spaced) = [ '柱', '塞' ] ∧
    postprocess_translation (postprocess_translation piston_spaced) ≠
      postprocess_translation piston_spaced := by
  decide

/-! ### Idempotence of the postprocessor on CJK-free text without `?` -/

/-- pair-freedom: no two adjacent characters satisfy the relation. -/
def pairFree (R : Char → Char → Prop) (l : List Char) : Prop :=
  List.Chain' (fun a b => ¬ R a b) l

/-- Whitespace directly before a blank/blank pair target, the pattern of
`[ \t]{2,}`. -/
def relBB (a b : Char) : Prop := isBlank a = true ∧ isBlank b = true

/-- Whitespace directly before full-width punctuation. -/
def relWF (a b : Char) : Prop := isWs a = true ∧ isFullPunct b = true

/-- Full-width punctuation directly followed by whitespace. -/
def relFW (a b : Char) : Prop := isFullPunct a = true ∧ isWs b = true

/-- Whitespace directly before Latin punctuation. -/
def relWL (a b : Char) : Prop := isWs a = true ∧ isLatinPunct b = true

theorem head_dropWhile_not {p : Char → Bool} {l : List Char} {h : Char}
    (hh : (l.dropWhile p).head? = some h) : p h = false := by
  induction l with
  | nil => cases hh
  | cons c t ih =>
    by_cases hc : p c = true
    · rw [List.dropWhile_cons_of_pos hc] at hh
      exact ih hh
    · rw [List.dropWhile_cons_of_neg hc] at hh
      cases hh
      exact Bool.eq_false_iff.mpr hc

theorem prefix_head {l m : List Char} (h : l <+: m) (hne : l ≠ []) :
    l.head? = m.head? := by
  obtain ⟨r, rfl⟩ := h
  cases l with
  | nil => exact absurd rfl hne
  | cons c t => rfl

theorem strip_prefix_of_lstrip (l : List Char) :
    strip l <+: l.dropWhile isWs := by
  unfold strip
  have h1 : List.dropWhile isWs (List.dropWhile isWs l).reverse <:+
      (List.dropWhile isWs l).reverse := List.dropWhile_suffix isWs
  have h2 := List.reverse_prefix.2 h1
  simpa using h2

theorem strip_within (l : List Char) : strip l <:+: l :=
  ((strip_prefix_of_lstrip l).isInfix).trans (List.dropWhile_suffix isWs).isInfix

theorem strip_head_not_ws {l : List Char} {h : Char}
    (hh : (strip l).head? = some h) : isWs h = false := by
  have hne : strip l ≠ [] := by
    intro hx
    rw [hx] at hh
    cases hh
  rw [prefix_head (strip_prefix_of_lstrip l) hne] at hh
  exact head_dropWhile_not hh

theorem strip_getLast_not_ws {l : List Char} {h : Char}
    (hh : (strip l).getLast? = some h) : isWs h = false := by
  unfold strip at hh
  rw [List.getLast?_reverse] at hh
  exact head_dropWhile_not hh

theorem strip_eq_self {l : List Char}
    (hhd : ∀ h, l.head? = some h → isWs h = false)
    (hlast : ∀ h, l.getLast? = some h → isWs h = false) : strip l = l := by
  have h1 : l.dropWhile isWs = l := by
    cases l with
    | nil => rfl
    | cons c t => exact List.dropWhile_cons_of_neg (by simp [hhd c rfl])
  unfold strip
  rw [h1]
  have h2 : l.reverse.dropWhile isWs = l.reverse := by
    cases hr : l.reverse with
    | nil => rfl
    | cons c t =>
      refine List.dropWhile_cons_of_neg ?_
      have : l.getLast? = some c := by
        rw [← List.head?_reverse, hr]
        rfl
      simp [hlast c this]
  rw [h2, List.reverse_reverse]

theorem strip_strip (l : List Char) : strip (strip l) = strip l :=
  strip_eq_self (fun _ hh => strip_head_not_ws hh)
    (fun _ hh => strip_getLast_not_ws hh)

theorem del_qq_mem {l : List Char} {c : Char} (h : c ∈ del_qq l) : c ∈ l := by
  induction l using del_qq.induct with
  | case1 => cases h
  | case2 d => exact h
  | case3 d e t hde ih =>
    rw [del_qq, if_pos hde] at h
    exact List.mem_cons_of_mem d (List.mem_cons_of_mem e (ih h))
  | case4 d e t hde ih =>
    rw [del_qq, if_neg hde] at h
    rcases List.mem_cons.1 h with rfl | h
    · exact List.mem_cons_self c _
    · exact List.mem_cons_of_mem d (ih h)

theorem del_qq_id {l : List Char} (h : '?' ∉ l) : del_qq l = l := by
  induction l using del_qq.induct with
  | case1 => rfl
  | case2 d => rfl
  | case3 d e t hde ih =>
    exact absurd (hde.1 ▸ List.mem_cons_self d _) h
  | case4 d e t hde ih =>
    rw [del_qq, if_neg hde, ih (fun hm => h (List.mem_cons_of_mem d hm))]

theorem cjk_ws_mem {l : List Char} {c : Char} :
    ∀ b pend, c ∈ cjk_ws b pend l → c ∈ pend ∨ c ∈ l := by
  induction l with
  | nil =>
    intro b pend h
    rw [cjk_ws] at h
    exact Or.inl h
  | cons d t ih =>
    intro b pend h
    rw [cjk_ws] at h
    by_cases h1 : isWs d = true
    · rw [if_pos h1] at h
      by_cases h2 : b = true
      · rw [if_pos h2] at h
        rcases ih b (pend ++ [d]) h with h | h
        · rcases List.mem_append.1 h with h | h
          · exact Or.inl h
          · rcases List.mem_singleton.1 h with rfl
            exact Or.inr (List.mem_cons_self c t)
        · exact Or.inr (List.mem_cons_of_mem d h)
      · rw [if_neg h2] at h
        rcases List.mem_append.1 h with h | h
        · exact Or.inl h
        · rcases List.mem_cons.1 h with rfl | h
          · exact Or.inr (List.mem_cons_self c t)
          · rcases ih false [] h with h | h
            · cases h
            · exact Or.inr (List.mem_cons_of_mem d h)
    · rw [if_neg h1] at h
      by_cases h2 : isCJK d = true
      · rw [if_pos h2] at h
        by_cases h3 : b = true ∧ pend ≠ []
        · rw [if_pos h3] at h
          rcases List.mem_cons.1 h with rfl | h
          · exact Or.inr (List.mem_cons_self c t)
          · rcases ih true [] h with h | h
            · cases h
            · exact Or.inr (List.mem_cons_of_mem d h)
        · rw [if_neg h3] at h
          rcases List.mem_append.1 h with h | h
          · exact Or.inl h
          · rcases List.mem_cons.1 h with rfl | h
            · exact Or.inr (List.mem_cons_self c t)
            · rcases ih true [] h with h | h
              · cases h
              · exact Or.inr (List.mem_cons_of_mem d h)
      · rw [if_neg h2] at h
        rcases List.mem_append.1 h with h | h
        · exact Or.inl h
        · rcases List.mem_cons.1 h with rfl | h
          · exact Or.inr (List.mem_cons_self c t)
          · rcases ih false [] h with h | h
            · cases h
            · exact Or.inr (List.mem_cons_of_mem d h)

theorem ws_before_mem {f : Char → Bool} {l : List Char} {c : Char} :
    ∀ pend, c ∈ ws_before f pend l → c ∈ pend ∨ c ∈ l := by
  induction l with
  | nil =>
    intro pend h
    rw [ws_before] at h
    exact Or.inl h
  | cons d t ih =>
    intro pend h
    rw [ws_before] at h
    by_cases h1 : isWs d = true
    · rw [if_pos h1] at h
      rcases ih (pend ++ [d]) h with h | h
      · rcases List.mem_append.1 h with h | h
        · exact Or.inl h
        · rcases List.mem_singleton.1 h with rfl
          exact Or.inr (List.mem_cons_self c t)
      · exact Or.inr (List.mem_cons_of_mem d h)
    · rw [if_neg h1] at h
      by_cases h2 : f d = true
      · rw [if_pos h2] at h
        rcases List.mem_cons.1 h with rfl | h
        · exact Or.inr (List.mem_cons_self c t)
        · rcases ih [] h with h | h
          · cases h
          · exact Or.inr (List.mem_cons_of_mem d h)
      · rw [if_neg h2] at h
        rcases List.mem_append.1 h with h | h
        · exact Or.inl h
        · rcases List.mem_cons.1 h with rfl | h
          · exact Or.inr (List.mem_cons_self c t)
          · rcases ih [] h with h | h
            · cases h
            · exact Or.inr (List.mem_cons_of_mem d h)

theorem punct_ws_mem {f : Char → Bool} {l : List Char} {c : Char} :
    ∀ b, c ∈ punct_ws f b l → c ∈ l := by
  induction l with
  | nil =>
    intro b h
    cases h
  | cons d t ih =>
    intro b h
    rw [punct_ws] at h
    by_cases h1 : (b && isWs d) = true
    · rw [if_pos h1] at h
      exact List.mem_cons_of_mem d (ih true h)
    · rw [if_neg h1] at h
      by_cases h2 : f d = true
      · rw [if_pos h2] at h
        rcases List.mem_cons.1 h with rfl | h
        · exact List.mem_cons_self c t
        · exact List.mem_cons_of_mem d (ih true h)
      · rw [if_neg h2] at h
        rcases List.mem_cons.1 h with rfl | h
        · exact List.mem_cons_self c t
        · exact List.mem_cons_of_mem d (ih false h)

theorem repl2_mem {x y : Char} {r l : List Char} {c : Char}
    (h : c ∈ repl2 x y r l) : c ∈ l ∨ c ∈ r := by
  induction l using repl2.induct (x := x) (y := y) (r := r) with
  | case1 => cases h
  | case2 d => exact Or.inl h
  | case3 d e t hde ih =>
    rw [repl2, if_pos hde] at h
    rcases List.mem_append.1 h with h | h
    · exact Or.inr h
    · rcases ih h with h | h
      · exact Or.inl (List.mem_cons_of_mem d (List.mem_cons_of_mem e h))
      · exact Or.inr h
  | case4 d e t hde ih =>
    rw [repl2, if_neg hde] at h
    rcases List.mem_cons.1 h with rfl | h
    · exact Or.inl (List.mem_cons_self c _)
    · rcases ih h with h | h
      · exact Or.inl (List.mem_cons_of_mem d h)
      · exact Or.inr h

theorem cjk_ws_id {l : List Char} (h : ∀ c ∈ l, isCJK c = false) :
    cjk_ws false [] l = l := by
  induction l with
  | nil => rfl
  | cons d t ih =>
    have hd := h d (List.mem_cons_self d t)
    have ht : ∀ c ∈ t, isCJK c = false := fun c hc => h c (List.mem_cons_of_mem d hc)
    rw [cjk_ws]
    by_cases h1 : isWs d = true
    · rw [if_pos h1, if_neg (by simp)]
      rw [ih ht]
      rfl
    · rw [if_neg h1, if_neg (by simp [hd]), ih ht]
      rfl

theorem pairFree_last_head {R : Char → Char → Prop} {pend l : List Char} {c : Char}
    (h : pairFree R (pend ++ c :: l)) (hne : pend ≠ []) :
    ∃ a, pend.getLast? = some a ∧ ¬R a c := by
  obtain ⟨_, _, h3⟩ := List.chain'_append.1 h
  cases hgl : pend.getLast? with
  | none => exact absurd (List.getLast?_eq_none_iff.1 hgl) hne
  | some a => exact ⟨a, rfl, h3 a hgl c rfl⟩

theorem ws_before_id {f : Char → Bool} :
    ∀ (l pend : List Char), (∀ c ∈ pend, isWs c = true) →
      pairFree (fun a b => isWs a = true ∧ f b = true) (pend ++ l) →
      ws_before f pend l = pend ++ l := by
  intro l
  induction l with
  | nil =>
    intro pend _ _
    rw [ws_before]
    simp
  | cons d t ih =>
    intro pend hpend hpf
    rw [ws_before]
    by_cases h1 : isWs d = true
    · rw [if_pos h1]
      have := ih (pend ++ [d]) (by
        intro c hc
        rcases List.mem_append.1 hc with hc | hc
        · exact hpend c hc
        · rcases List.mem_singleton.1 hc with rfl
          exact h1) (by simpa using hpf)
      rw [this]
      simp
    · rw [if_neg h1]
      have htail : pairFree (fun a b => isWs a = true ∧ f b = true) t :=
        ((List.chain'_append.1 hpf).2.1).tail
      by_cases h2 : f d = true
      · rw [if_pos h2]
        have hpe : pend = [] := by
          by_contra hne
          obtain ⟨a, hga, hna⟩ := pairFree_last_head hpf hne
          exact hna ⟨hpend a (List.mem_of_mem_getLast? hga), h2⟩
        subst hpe
        rw [ih [] (by simp) (by simpa using htail)]
        simp
      · rw [if_neg h2]
        rw [ih [] (by simp) (by simpa using htail)]
        simp

theorem punct_ws_head_false {f : Char → Bool} (l : List Char) :
    (punct_ws f false l).head? = l.head? := by
  cases l with
  | nil => rfl
  | cons d t =>
    rw [punct_ws]
    by_cases h2 : f d = true
    · rw [if_neg (by simp), if_pos h2]
      rfl
    · rw [if_neg (by simp), if_neg h2]
      rfl

theorem punct_ws_head_true {f : Char → Bool} {l : List Char} {h : Char} :
    (punct_ws f true l).head? = some h → isWs h = false := by
  induction l with
  | nil =>
    intro hh
    cases hh
  | cons d t ih =>
    intro hh
    rw [punct_ws] at hh
    by_cases h1 : isWs d = true
    · rw [if_pos (by simp [h1])] at hh
      exact ih hh
    · by_cases h2 : f d = true
      · rw [if_neg (by simp [h1]), if_pos h2] at hh
        cases hh
        exact Bool.eq_false_iff.mpr h1
      · rw [if_neg (by simp [h1]), if_neg h2] at hh
        cases hh
        exact Bool.eq_false_iff.mpr h1

theorem punct_ws_id {f : Char → Bool} :
    ∀ (l : List Char), pairFree relFW l →
      (∀ c, f c = true → isFullPunct c = true) →
      punct_ws f false l = l := by
  intro l
  induction l with
  | nil => intro _ _; rfl
  | cons d t ih =>
    intro hpf hf
    rw [punct_ws, if_neg (by simp)]
    have htail := hpf.tail
    by_cases h2 : f d = true
    · rw [if_pos h2]
      congr 1
      cases t with
      | nil => rfl
      | cons e t2 =>
        have hde := (List.chain'_cons'.1 hpf).1 e rfl
        have hew : isWs e = false := by
          by_contra hx
          exact hde ⟨hf d h2, by
            cases hxx : isWs e
            · exact absurd hxx (by
                intro hc
                exact hx (by rw [hc]))
            · rfl⟩
        rw [punct_ws]
        rw [if_neg (by simp [hew]), ]
        by_cases h3 : f e = true
        · rw [if_pos h3]
          have := ih htail hf
          rw [punct_ws, if_neg (by simp), if_pos h3] at this
          exact this
        · rw [if_neg h3]
          have := ih htail hf
          rw [punct_ws, if_neg (by simp), if_neg h3] at this
          exact this
    · rw [if_neg h2]
      rw [ih htail hf]

theorem repl2_id {x y : Char} {r l : List Char}
    (h : List.Chain' (fun a b => ¬(a = x ∧ b = y)) l) : repl2 x y r l = l := by
  induction l using repl2.induct (x := x) (y := y) (r := r) with
  | case1 => rfl
  | case2 d => rfl
  | case3 d e t hde ih =>
    exact absurd hde ((List.chain'_cons'.1 h).1 e rfl)
  | case4 d e t hde ih =>
    rw [repl2, if_neg hde, ih h.tail]

theorem map_sub_mark_id {l : List Char}
    (h : ∀ c ∈ l, c ≠ '\xA0' ∧ c ≠ '▁') : l.map sub_mark = l := by
  induction l with
  | nil => rfl
  | cons d t ih =>
    obtain ⟨h1, h2⟩ := h d (List.mem_cons_self d t)
    rw [List.map_cons, ih (fun c hc => h c (List.mem_cons_of_mem d hc))]
    unfold sub_mark
    rw [if_neg (by
      intro hx
      rcases hx with hx | hx
      · exact h1 hx
      · exact h2 hx)]

theorem cb_main_cons_of {d : Char} {t : List Char}
    (h : isBlank d = true → ∀ e, t.head? = some e → isBlank e = false) :
    cb_main (d :: t) = d :: cb_main t := by
  rw [cb_main]
  by_cases hd : isBlank d = true
  · rw [if_pos hd]
    cases t with
    | nil => rfl
    | cons e t2 =>
      have he := h hd e rfl
      rw [cb_blank, if_neg (by simp [he]), cb_main, if_neg (by simp [he])]
  · rw [if_neg hd]

theorem cb_main_id {l : List Char} (h : pairFree relBB l) : cb_main l = l := by
  induction l with
  | nil => rfl
  | cons d t ih =>
    rw [cb_main_cons_of (fun hd e he => by
      by_contra hx
      have hbe : isBlank e = true := by
        cases hxx : isBlank e
        · exact absurd hxx hx
        · rfl
      exact (List.chain'_cons'.1 h).1 e he ⟨hd, hbe⟩)]
    rw [ih h.tail]

theorem cb_establish :
    ∀ l : List Char,
      pairFree relBB (cb_main l) ∧
      (∀ b, pairFree relBB (cb_blank b l)) ∧
      pairFree relBB (cb_run l) ∧
      (∀ e, (cb_run l).head? = some e → isBlank e = false) := by
  intro l
  induction l with
  | nil =>
    refine ⟨List.chain'_nil, fun b => List.chain'_singleton b, List.chain'_nil, ?_⟩
    intro e he
    cases he
  | cons d t ih =>
    obtain ⟨ih1, ih2, ih3, ih4⟩ := ih
    have hmain : pairFree relBB (cb_main (d :: t)) := by
      rw [cb_main]
      by_cases hd : isBlank d = true
      · rw [if_pos hd]
        exact ih2 d
      · rw [if_neg hd]
        refine List.chain'_cons'.2 ⟨?_, ih1⟩
        intro y _
        intro hr
        exact hd hr.1
    refine ⟨hmain, ?_, ?_, ?_⟩
    · intro b
      rw [cb_blank]
      by_cases hd : isBlank d = true
      · rw [if_pos hd]
        refine List.chain'_cons'.2 ⟨?_, ih3⟩
        intro y hy
        intro hr
        have h2 := hr.2
        rw [ih4 y hy] at h2
        cases h2
      · rw [if_neg hd]
        refine List.chain'_cons'.2 ⟨?_, ?_⟩
        · intro y hy
          intro hr
          have hyd : d = y := by simpa using hy
          subst hyd
          exact hd hr.2
        · refine List.chain'_cons'.2 ⟨?_, ih1⟩
          intro y _
          intro hr
          exact hd hr.1
    · rw [cb_run]
      by_cases hd : isBlank d = true
      · rw [if_pos hd]
        exact ih3
      · rw [if_neg hd]
        refine List.chain'_cons'.2 ⟨?_, ih1⟩
        intro y _
        intro hr
        exact hd hr.1
    · intro e he
      rw [cb_run] at he
      by_cases hd : isBlank d = true
      · rw [if_pos hd] at he
        exact ih4 e he
      · rw [if_neg hd] at he
        cases he
        exact Bool.eq_false_iff.mpr hd

theorem chain'_not_of_mem {R : Char → Char → Prop} :
    ∀ l : List Char, (∀ a ∈ l, ∀ b ∈ l, ¬ R a b) →
      List.Chain' (fun a b => ¬R a b) l := by
  intro l
  induction l with
  | nil => intro _; exact List.chain'_nil
  | cons c t ih =>
    intro h
    refine List.chain'_cons'.2 ⟨?_, ?_⟩
    · intro y hy
      exact h c (List.mem_cons_self c t) y
        (List.mem_cons_of_mem c (List.mem_of_mem_head? hy))
    · exact ih (fun a ha b hb =>
        h a (List.mem_cons_of_mem c ha) b (List.mem_cons_of_mem c hb))

theorem ws_before_establish {f : Char → Bool}
    (hgw : ∀ c, isWs c = true → f c = false) :
    ∀ (l pend : List Char), (∀ c ∈ pend, isWs c = true) →
      pairFree (fun a b => isWs a = true ∧ f b = true) (ws_before f pend l) := by
  intro l
  induction l with
  | nil =>
    intro pend hpend
    rw [ws_before]
    refine chain'_not_of_mem pend ?_
    intro a _ b hb hr
    rw [hgw b (hpend b hb)] at hr
    cases hr.2
  | cons d t ih =>
    intro pend hpend
    rw [ws_before]
    by_cases h1 : isWs d = true
    · rw [if_pos h1]
      refine ih (pend ++ [d]) ?_
      intro c hc
      rcases List.mem_append.1 hc with hc | hc
      · exact hpend c hc
      · rcases List.mem_singleton.1 hc with rfl
        exact h1
    · rw [if_neg h1]
      by_cases h2 : f d = true
      · rw [if_pos h2]
        refine List.chain'_cons'.2 ⟨?_, ih [] (by simp)⟩
        intro y _ hr
        exact h1 hr.1
      · rw [if_neg h2]
        refine List.chain'_append.2 ⟨?_, ?_, ?_⟩
        · refine chain'_not_of_mem pend ?_
          intro a _ b hb hr
          rw [hgw b (hpend b hb)] at hr
          cases hr.2
        · refine List.chain'_cons'.2 ⟨?_, ih [] (by simp)⟩
          intro y _ hr
          exact h1 hr.1
        · intro x hx y hy hr
          have hyd : d = y := by simpa using hy
          subst hyd
          exact h2 hr.2

theorem isFullPunct_not_ws {c : Char} (h : isFullPunct c = true) :
    isWs c = false := by
  have h' := by simpa [isFullPunct] using h
  rcases h' with ((((((rfl | rfl) | rfl) | rfl) | rfl) | rfl) | rfl) <;> decide

theorem isFullPunct_not_blank {c : Char} (h : isFullPunct c = true) :
    isBlank c = false := by
  have h' := by simpa [isFullPunct] using h
  rcases h' with ((((((rfl | rfl) | rfl) | rfl) | rfl) | rfl) | rfl) <;> decide

theorem isLatinPunct_not_ws {c : Char} (h : isLatinPunct c = true) :
    isWs c = false := by
  have h' := by simpa [isLatinPunct] using h
  rcases h' with (((((rfl | rfl) | rfl) | rfl) | rfl) | rfl) <;> decide

theorem isLatinPunct_not_full {c : Char} (h : isLatinPunct c = true) :
    isFullPunct c = false := by
  have h' := by simpa [isLatinPunct] using h
  rcases h' with (((((rfl | rfl) | rfl) | rfl) | rfl) | rfl) <;> decide

theorem isWs_not_full {c : Char} (h : isWs c = true) : isFullPunct c = false := by
  cases hx : isFullPunct c
  · rfl
  · rw [isFullPunct_not_ws hx] at h
    cases h

theorem punct_ws_establish :
    ∀ (l : List Char) (b : Bool), pairFree relFW (punct_ws isFullPunct b l) := by
  intro l
  induction l with
  | nil => intro b; exact List.chain'_nil
  | cons d t ih =>
    intro b
    rw [punct_ws]
    by_cases h1 : (b && isWs d) = true
    · rw [if_pos h1]
      exact ih true
    · rw [if_neg h1]
      by_cases h2 : isFullPunct d = true
      · rw [if_pos h2]
        refine List.chain'_cons'.2 ⟨?_, ih true⟩
        intro y hy hr
        have hr2 := hr.2
        rw [punct_ws_head_true hy] at hr2
        cases hr2
      · rw [if_neg h2]
        refine List.chain'_cons'.2 ⟨?_, ih false⟩
        intro y _ hr
        exact absurd hr.1 (by simp [h2])

theorem punct_ws_preserve_BB :
    ∀ (l : List Char) (b : Bool), pairFree relBB l →
      pairFree relBB (punct_ws isFullPunct b l) := by
  intro l
  induction l with
  | nil => intro b _; exact List.chain'_nil
  | cons d t ih =>
    intro b h
    rw [punct_ws]
    by_cases h1 : (b && isWs d) = true
    · rw [if_pos h1]
      exact ih true h.tail
    · rw [if_neg h1]
      by_cases h2 : isFullPunct d = true
      · rw [if_pos h2]
        refine List.chain'_cons'.2 ⟨?_, ih true h.tail⟩
        intro y _ hr
        have hr1 := hr.1
        rw [isFullPunct_not_blank h2] at hr1
        cases hr1
      · rw [if_neg h2]
        refine List.chain'_cons'.2 ⟨?_, ih false h.tail⟩
        intro y hy hr
        rw [punct_ws_head_false t] at hy
        exact (List.chain'_cons'.1 h).1 y hy hr

theorem punct_ws_preserve_WF :
    ∀ (l : List Char) (b : Bool), pairFree relWF l →
      pairFree relWF (punct_ws isFullPunct b l) := by
  intro l
  induction l with
  | nil => intro b _; exact List.chain'_nil
  | cons d t ih =>
    intro b h
    rw [punct_ws]
    by_cases h1 : (b && isWs d) = true
    · rw [if_pos h1]
      exact ih true h.tail
    · rw [if_neg h1]
      by_cases h2 : isFullPunct d = true
      · rw [if_pos h2]
        refine List.chain'_cons'.2 ⟨?_, ih true h.tail⟩
        intro y _ hr
        have hr1 := hr.1
        rw [isFullPunct_not_ws h2] at hr1
        cases hr1
      · rw [if_neg h2]
        refine List.chain'_cons'.2 ⟨?_, ih false h.tail⟩
        intro y hy hr
        rw [punct_ws_head_false t] at hy
        exact (List.chain'_cons'.1 h).1 y hy hr

theorem ws_before_head {g : Char → Bool} (hg : ∀ c, g c = true → isWs c = false) :
    ∀ (l pend : List Char) (h : Char),
      (ws_before g pend l).head? = some h → isWs h = true →
      (pend ++ l).head? = some h := by
  intro l
  induction l with
  | nil =>
    intro pend h hh _
    rw [ws_before] at hh
    simpa using hh
  | cons d t ih =>
    intro pend h hh hw
    rw [ws_before] at hh
    by_cases h1 : isWs d = true
    · rw [if_pos h1] at hh
      have := ih (pend ++ [d]) h hh hw
      rwa [List.append_assoc, List.singleton_append] at this
    · rw [if_neg h1] at hh
      by_cases h2 : g d = true
      · rw [if_pos h2] at hh
        cases hh
        rw [hg d h2] at hw
        cases hw
      · rw [if_neg h2] at hh
        cases pend with
        | nil =>
          simp only [List.nil_append] at hh ⊢
          cases hh
          rw [Bool.eq_false_iff.mpr h1] at hw
          cases hw
        | cons p ps =>
          simpa using hh

theorem ws_before_preserve_left {R : Char → Char → Prop} {g : Char → Bool}
    (hR : ∀ a b, R a b → isWs a = true)
    (hg : ∀ c, g c = true → isWs c = false) :
    ∀ (l pend : List Char), (∀ c ∈ pend, isWs c = true) →
      pairFree R (pend ++ l) → pairFree R (ws_before g pend l) := by
  intro l
  induction l with
  | nil =>
    intro pend _ h
    rw [ws_before]
    exact h.prefix ⟨[], by simp⟩
  | cons d t ih =>
    intro pend hpend h
    rw [ws_before]
    have htail : pairFree R t := ((List.chain'_append.1 h).2.1).tail
    by_cases h1 : isWs d = true
    · rw [if_pos h1]
      refine ih (pend ++ [d]) ?_ (by simpa using h)
      intro c hc
      rcases List.mem_append.1 hc with hc | hc
      · exact hpend c hc
      · rcases List.mem_singleton.1 hc with rfl
        exact h1
    · rw [if_neg h1]
      by_cases h2 : g d = true
      · rw [if_pos h2]
        refine List.chain'_cons'.2 ⟨?_, ih [] (by simp) (by simpa using htail)⟩
        intro y _ hr
        have hx := hR d y hr
        rw [hg d h2] at hx
        cases hx
      · rw [if_neg h2]
        refine List.chain'_append.2 ⟨ h.prefix ⟨d :: t, rfl⟩, ?_, ?_⟩
        · refine List.chain'_cons'.2 ⟨?_, ih [] (by simp) (by simpa using htail)⟩
          intro y _ hr
          have hx := hR d y hr
          rw [Bool.eq_false_iff.mpr h1] at hx
          cases hx
        · intro x hx y hy hr
          obtain ⟨a, hga, hna⟩ := pairFree_last_head h (by
            intro hpe
            subst hpe
            cases hx)
          rw [hga] at hx
          cases hx
          have hyd : d = y := by simpa using hy
          subst hyd
          exact hna hr

theorem isWs_not_latin {c : Char} (h : isWs c = true) : isLatinPunct c = false := by
  cases hx : isLatinPunct c
  · rfl
  · rw [isLatinPunct_not_ws hx] at h
    cases h

theorem ws_before_preserve_FW :
    ∀ (l pend : List Char), (∀ c ∈ pend, isWs c = true) →
      pairFree relFW (pend ++ l) →
      pairFree relFW (ws_before isLatinPunct pend l) := by
  intro l
  induction l with
  | nil =>
    intro pend hpend h
    rw [ws_before]
    refine chain'_not_of_mem pend ?_
    intro a ha b _ hr
    have hx := hr.1
    rw [isWs_not_full (hpend a ha)] at hx
    cases hx
  | cons d t ih =>
    intro pend hpend h
    rw [ws_before]
    have htail : pairFree relFW t := ((List.chain'_append.1 h).2.1).tail
    by_cases h1 : isWs d = true
    · rw [if_pos h1]
      refine ih (pend ++ [d]) ?_ (by simpa using h)
      intro c hc
      rcases List.mem_append.1 hc with hc | hc
      · exact hpend c hc
      · rcases List.mem_singleton.1 hc with rfl
        exact h1
    · rw [if_neg h1]
      by_cases h2 : isLatinPunct d = true
      · rw [if_pos h2]
        refine List.chain'_cons'.2 ⟨?_, ih [] (by simp) (by simpa using htail)⟩
        intro y _ hr
        have hx := hr.1
        rw [isLatinPunct_not_full h2] at hx
        cases hx
      · rw [if_neg h2]
        refine List.chain'_append.2 ⟨ h.prefix ⟨d :: t, rfl⟩, ?_, ?_⟩
        · refine List.chain'_cons'.2 ⟨?_, ih [] (by simp) (by simpa using htail)⟩
          intro y hy hr
          by_cases hyw : isWs y = true
          · have hhd := ws_before_head (fun c hc => isLatinPunct_not_ws hc) t [] y
              (by simpa using hy) hyw
            simp only [List.nil_append] at hhd
            have hchain : pairFree relFW (d :: t) :=
              (List.chain'_append.1 h).2.1
            exact (List.chain'_cons'.1 hchain).1 y hhd hr
          · exact hyw hr.2
        · intro x hx y hy hr
          obtain ⟨a, hga, hna⟩ := pairFree_last_head h (by
            intro hpe
            subst hpe
            cases hx)
          have hxa : a = x := by
            rw [hga] at hx
            simpa using hx
          subst hxa
          have hxw := hr.1
          rw [isWs_not_full (hpend a (List.mem_of_mem_getLast? hga))] at hxw
          cases hxw

theorem any_cjk_false {l : List Char} (h : ∀ c ∈ l, isCJK c = false) :
    l.any isCJK = false := by
  rw [List.any_eq_false]
  intro c hc
  simp [h c hc]

theorem fullpunct_space_id {l : List Char} (h : pairFree relFW l) :
    fullpunct_space l = l := by
  have key : ∀ (x : Char), isFullPunct x = true →
      List.Chain' (fun a b => ¬(a = x ∧ b = ' ')) l := by
    intro x hx
    refine h.imp ?_
    intro a b hnab hab
    exact hnab ⟨by rw [hab.1]; exact hx, by rw [hab.2]; decide⟩
  unfold fullpunct_space
  rw [repl2_id (key '，' (by decide)), repl2_id (key '。' (by decide)),
    repl2_id (key '？' (by decide)), repl2_id (key '！' (by decide)),
    repl2_id (key '；' (by decide)), repl2_id (key '：' (by decide))]

/-- Characters that make the artifact-removal and CJK branches of the
postprocessor inert. -/
def post_ok (c : Char) : Prop :=
  isCJK c = false ∧ c ≠ '?' ∧ c ≠ '\xA0' ∧ c ≠ '▁' ∧ c ≠ '⁇'

theorem post_ok_space : post_ok ' ' := by
  refine ⟨by decide, by decide, by decide, by decide, by decide⟩

theorem post_ok_full {c : Char} (h : isFullPunct c = true) : post_ok c := by
  have h' := by simpa [isFullPunct] using h
  rcases h' with ((((((rfl | rfl) | rfl) | rfl) | rfl) | rfl) | rfl) <;>
    exact ⟨by decide, by decide, by decide, by decide, by decide⟩

theorem postprocess_eq_of_no_cjk {x : List Char}
    (hz : (cb_main (del_qq ((x.map sub_mark).filter
      (fun c => c ≠ '⁇')))).any isCJK = false) :
    postprocess_translation x =
      strip (fullpunct_space (cjk_ws false [] (ws_before isLatinPunct []
        (punct_ws isFullPunct false (ws_before isFullPunct [] (cjk_ws false []
          (cb_main (del_qq ((x.map sub_mark).filter
            (fun c => c ≠ '⁇')))))))))) := by
  unfold postprocess_translation
  dsimp only
  rw [hz, if_neg (by decide)]

theorem pipe_props {t2 o : List Char} (hp : ∀ c ∈ t2, post_ok c)
    (hBB2 : pairFree relBB t2)
    (ho : o = strip (fullpunct_space (cjk_ws false [] (ws_before isLatinPunct []
      (punct_ws isFullPunct false (ws_before isFullPunct []
        (cjk_ws false [] t2))))))) :
    (∀ c ∈ o, post_ok c) ∧ pairFree relBB o ∧ pairFree relWF o ∧
      pairFree relFW o ∧ pairFree relWL o ∧ strip o = o := by
  have hnc2 : ∀ c ∈ t2, isCJK c = false := fun c hc => (hp c hc).1
  rw [cjk_ws_id hnc2] at ho
  set t5 := ws_before isFullPunct [] t2 with h5
  set t6 := punct_ws isFullPunct false t5 with h6
  set t7 := ws_before isLatinPunct [] t6 with h7
  have hnil : ∀ c : Char, c ∈ ([] : List Char) → isWs c = true :=
    fun c hc => absurd hc (List.not_mem_nil c)
  have hp5 : ∀ c ∈ t5, post_ok c := by
    intro c hc
    rw [h5] at hc
    rcases ws_before_mem [] hc with h | h
    · exact absurd h (List.not_mem_nil c)
    · exact hp c h
  have hp6 : ∀ c ∈ t6, post_ok c := by
    intro c hc
    rw [h6] at hc
    exact hp5 c (punct_ws_mem false hc)
  have hp7 : ∀ c ∈ t7, post_ok c := by
    intro c hc
    rw [h7] at hc
    rcases ws_before_mem [] hc with h | h
    · exact absurd h (List.not_mem_nil c)
    · exact hp6 c h
  have hnc7 : ∀ c ∈ t7, isCJK c = false := fun c hc => (hp7 c hc).1
  rw [cjk_ws_id hnc7] at ho
  have hBB5 : pairFree relBB t5 := by
    rw [h5]
    exact ws_before_preserve_left (fun a b hr => isBlank_ws hr.1)
      (fun c h => isFullPunct_not_ws h) t2 [] hnil (by simpa using hBB2)
  have hBB6 : pairFree relBB t6 := by
    rw [h6]
    exact punct_ws_preserve_BB t5 false hBB5
  have hBB7 : pairFree relBB t7 := by
    rw [h7]
    exact ws_before_preserve_left (fun a b hr => isBlank_ws hr.1)
      (fun c h => isLatinPunct_not_ws h) t6 [] hnil (by simpa using hBB6)
  have hWF5 : pairFree relWF t5 := by
    rw [h5]
    have h := ws_before_establish (fun c h => isWs_not_full h) t2 [] hnil
    simpa [pairFree, relWF] using h
  have hWF6 : pairFree relWF t6 := by
    rw [h6]
    exact punct_ws_preserve_WF t5 false hWF5
  have hWF7 : pairFree relWF t7 := by
    rw [h7]
    exact ws_before_preserve_left (fun a b hr => hr.1)
      (fun c h => isLatinPunct_not_ws h) t6 [] hnil (by simpa using hWF6)
  have hFW6 : pairFree relFW t6 := by
    rw [h6]
    exact punct_ws_establish t5 false
  have hFW7 : pairFree relFW t7 := by
    rw [h7]
    exact ws_before_preserve_FW t6 [] hnil (by simpa using hFW6)
  have hWL7 : pairFree relWL t7 := by
    rw [h7]
    have h := ws_before_establish (fun c h => isWs_not_latin h) t6 [] hnil
    simpa [pairFree, relWL] using h
  rw [fullpunct_space_id hFW7] at ho
  subst ho
  exact ⟨fun c hc => hp7 c (strip_subset hc),
    List.Chain'.infix hBB7 (strip_within t7),
    List.Chain'.infix hWF7 (strip_within t7),
    List.Chain'.infix hFW7 (strip_within t7),
    List.Chain'.infix hWL7 (strip_within t7),
    strip_strip t7⟩

theorem postprocess_out_props {x o : List Char}
    (ho : postprocess_translation x = o)
    (hcjk : ∀ c ∈ x, isCJK c = false) (hq : '?' ∉ x) :
    (∀ c ∈ o, post_ok c) ∧ pairFree relBB o ∧ pairFree relWF o ∧
      pairFree relFW o ∧ pairFree relWL o ∧ strip o = o := by
  have hfil : ∀ c ∈ (x.map sub_mark).filter (fun c => c ≠ '⁇'), post_ok c := by
    intro c hc
    have hm := (List.mem_filter.1 hc).1
    have hne : c ≠ '⁇' := by simpa using (List.mem_filter.1 hc).2
    rcases List.mem_map.1 hm with ⟨a, ha, rfl⟩
    by_cases hA : a = '\xA0' ∨ a = '▁'
    · have hsp : sub_mark a = ' ' := by unfold sub_mark; rw [if_pos hA]
      rw [hsp]
      exact post_ok_space
    · have hsa : sub_mark a = a := by unfold sub_mark; rw [if_neg hA]
      rw [hsa] at hne ⊢
      push_neg at hA
      exact ⟨hcjk a ha, fun h => hq (h ▸ ha), hA.1, hA.2, hne⟩
  have ht1p : ∀ c ∈ del_qq ((x.map sub_mark).filter (fun c => c ≠ '⁇')),
      post_ok c :=
    fun c hc => hfil c (del_qq_mem hc)
  have ht2p : ∀ c ∈ cb_main (del_qq ((x.map sub_mark).filter
      (fun c => c ≠ '⁇'))), post_ok c := by
    intro c hc
    rcases (cb_mem _ c).1 hc with h | rfl
    · exact ht1p c h
    · exact post_ok_space
  have hBB2 := (cb_establish (del_qq ((x.map sub_mark).filter
    (fun c => c ≠ '⁇')))).1
  have hz2 : (cb_main (del_qq ((x.map sub_mark).filter
      (fun c => c ≠ '⁇')))).any isCJK = false :=
    any_cjk_false (fun c hc => (ht2p c hc).1)
  have hsp := postprocess_eq_of_no_cjk hz2
  rw [ho] at hsp
  exact pipe_props ht2p hBB2 hsp

theorem postprocess_fix {l : List Char}
    (hchar : ∀ c ∈ l, post_ok c)
    (hBB : pairFree relBB l) (hWF : pairFree relWF l)
    (hFW : pairFree relFW l) (hWL : pairFree relWL l)
    (hstr : strip l = l) :
    postprocess_translation l = l := by
  have hmap : l.map sub_mark = l :=
    map_sub_mark_id (fun c hc => ⟨(hchar c hc).2.2.1, (hchar c hc).2.2.2.1⟩)
  have hflt : (l.map sub_mark).filter (fun c => c ≠ '⁇') = l := by
    rw [hmap]
    exact List.filter_eq_self.2 (fun c hc => by
      simpa using (hchar c hc).2.2.2.2)
  have hdq : del_qq l = l :=
    del_qq_id (fun hm => (hchar '?' hm).2.1 rfl)
  have hcb : cb_main l = l := cb_main_id hBB
  have hnc : ∀ c ∈ l, isCJK c = false := fun c hc => (hchar c hc).1
  have hz2 : (cb_main (del_qq ((l.map sub_mark).filter
      (fun c => c ≠ '⁇')))).any isCJK = false := by
    rw [hflt, hdq, hcb]
    exact any_cjk_false hnc
  have hnil : ∀ c : Char, c ∈ ([] : List Char) → isWs c = true :=
    fun c hc => absurd hc (List.not_mem_nil c)
  have hWF' : pairFree (fun a b => isWs a = true ∧ isFullPunct b = true)
      ([] ++ l) := by
    simpa [pairFree, relWF] using hWF
  have hwb1 : ws_before isFullPunct [] l = l := by
    have h := ws_before_id l [] hnil hWF'
    simpa using h
  have hpw : punct_ws isFullPunct false l = l := punct_ws_id l hFW (fun c h => h)
  have hWL' : pairFree (fun a b => isWs a = true ∧ isLatinPunct b = true)
      ([] ++ l) := by
    simpa [pairFree, relWL] using hWL
  have hwb2 : ws_before isLatinPunct [] l = l := by
    have h := ws_before_id l [] hnil hWL'
    simpa using h
  have hck : cjk_ws false [] l = l := cjk_ws_id hnc
  rw [postprocess_eq_of_no_cjk hz2, hflt, hdq, hcb, hck, hwb1, hpw, hwb2, hck,
    fullpunct_space_id hFW, hstr]

/-- C7: on translations that contain no CJK characters and no `?`, the
postprocessor is idempotent: running `_postprocess_translation` on its own
output returns that output unchanged.  (On general inputs idempotence fails;
see the counterexample above.) -/
theorem postprocess_idem_latin (x : List Char)
    (hcjk : ∀ c ∈ x, isCJK c = false) (hq : '?' ∉ x) :
    postprocess_translation (postprocess_translation x) =
      postprocess_translation x := by
  generalize hgen : postprocess_translation x = o
  obtain ⟨p1, p2, p3, p4, p5, p6⟩ := postprocess_out_props hgen hcjk hq
  exact postprocess_fix p1 p2 p3 p4 p5 p6

theorem postprocess_idem_latin_witness :
    (∀ c ∈ (r"a  b, ok.".toList : List Char), isCJK c = false) ∧
      '?' ∉ (r"a  b, ok.".toList : List Char) ∧
      postprocess_translation (postprocess_translation (r"a  b, ok.".toList)) =
        postprocess_translation (r"a  b, ok.".toList) :=
  ⟨by decide, by decide,
    postprocess_idem_latin (r"a  b, ok.".toList) (by decide) (by decide)⟩

/-- `re.sub(r"[ \t]+", " ", ...)` and `re.sub(r"[ ]{2,}", " ", ...)`: every
maximal run of characters of class `p` becomes a single space (lines 173 and
178; for the space-only class a single space maps to itself, so the `{2,}`
and `+` quantifiers give the same function). -/
def collapse_runs (p : Char → Bool) : Bool → List Char → List Char
  | _, [] => []
  | inRun, c :: t =>
    if p c then
      if inRun then collapse_runs p true t else ' ' :: collapse_runs p true t
    else c :: collapse_runs p false t

/-- Python's `\w` class on the character repertoire of this program: ASCII
letters and digits, underscore, and CJK ideographs (all word characters). -/
def isPyWord (c : Char) : Bool := c.isAlpha || c.isDigit || c = '_' || isCJK c

/-- After a backslash, try to match `\s*[nN]\b` (line 174): skip whitespace,
expect `n`/`N`, and require a word boundary after it.  Returns the rest of
the input on success. -/
def try_bsn (t : List Char) : Option (List Char) :=
  match t.dropWhile isWs with
  | c :: r =>
    if ((c = 'n' ∨ c = 'N') : Bool) &&
        (match r.head? with
         | some d => ! isPyWord d
         | none => true) then some r else none
  | [] => none

/-- Scanner for `re.sub(r"\\\s*[nN]\b", " ", ...)` (line 174).  `fuel` only
drives structural recursion: every step consumes at least one character, so
starting it at the input length never exhausts it. -/
def bslash_n_go : Nat → List Char → List Char
  | 0, l => l
  | _, [] => []
  | fuel + 1, c :: t =>
    if c = '\\' then
      match try_bsn t with
      | some r => ' ' :: bslash_n_go fuel r
      | none => c :: bslash_n_go fuel t
    else c :: bslash_n_go fuel t

def bslash_n (l : List Char) : List Char := bslash_n_go l.length l

/-- Emit a pending newline run: `re.sub(r"\n{3,}", "\n\n", ...)` replaces a
maximal run of three or more newlines by two (line 175). -/
def flush3 (run : Nat) : List Char :=
  if 3 ≤ run then ['\n', '\n'] else List.replicate run '\n'

def nl3_go : Nat → List Char → List Char
  | run, [] => flush3 run
  | run, c :: t =>
    if c = '\n' then nl3_go (run + 1) t
    else flush3 run ++ c :: nl3_go 0 t

/-- `re.sub(r"(?<!\n)\n(?!\n)", " ", ...)`: a newline with no newline
neighbour (in the original string) becomes a space (line 176). -/
def nl1 (prev : Option Char) : List Char → List Char
  | [] => []
  | c :: t =>
    (if c = '\n' ∧ prev ≠ some '\n' ∧ t.head? ≠ some '\n' then ' ' else c) ::
      nl1 (some c) t

/-- The merge condition of the Latin token loop (lines 192-198): a stripped
token is glued onto the previous merged token when it is a single lowercase
letter, the previous token ends in an ASCII letter, and the next raw token
(if any) does not start with a lowercase letter. -/
def tok_mergeable (tk last : List Char) (next : Option (List Char)) : Bool :=
  match tk with
  | [c] =>
    c.isLower &&
      (match last.getLast? with
       | some d => d.isAlpha
       | none => false) &&
      (match next with
       | none => true
       | some nt =>
         match nt.head? with
         | some e => ! e.isLower
         | none => true)
  | _ => false

/-- The token merge loop of `_normalize_ocr_text` (lines 185-202): strip each
token, drop empty ones, and either glue a mergeable token onto the previous
entry or append it.  The accumulator holds the merged list in reverse. -/
def ocr_merge_go : List (List Char) → List (List Char) → List (List Char)
  | acc, [] => acc.reverse
  | acc, tok :: rest =>
    if strip tok = [] then ocr_merge_go acc rest
    else
      match acc with
      | [] => ocr_merge_go [strip tok] rest
      | last :: accr =>
        if tok_mergeable (strip tok) last rest.head? then
          ocr_merge_go ((last ++ strip tok) :: accr) rest
        else ocr_merge_go (strip tok :: last :: accr) rest

/-- `CoreEngine._normalize_ocr_text` (lines 171-205): EOL normalization,
blank-run collapse, stray `\n`-literal removal, newline-run collapse, lone
newline to space, double newline to single, space collapse and strip, then
the CJK OCR-typo fixes and the Latin single-letter token merge. -/
def normalize_ocr_text (text : List Char) : List Char :=
  let t2 := collapse_runs isBlank false (norm_eol text)
  let t4 := nl3_go 0 (bslash_n t2)
  let t6 := repl2 '\n' '\n' ['\n'] (nl1 none t4)
  let t7 := strip (collapse_runs (fun c => c = ' ') false t6)
  let t8 :=
    if t7.any isCJK then
      repl2 '工' '试' ['重', '试'] (repl2 '义' '件' ['文', '件'] t7)
    else t7
  if t8.any (fun c => c.isAlpha) then
    strip (collapse_runs (fun c => c = ' ') false
      (List.intercalate [' '] (ocr_merge_go [] (t8.splitOn ' '))))
  else t8

theorem collapse_runs_cons_nonp {p : Char → Bool} {c : Char} (hc : p c = false)
    (b : Bool) (t : List Char) :
    collapse_runs p b (c :: t) = c :: collapse_runs p false t := by
  simp only [collapse_runs, hc]
  rw [if_neg (by simp)]

theorem collapse_runs_nl_mid :
    ∀ (k : Nat) (t : List Char),
      collapse_runs isBlank false (List.replicate k '\n' ++ t) =
        List.replicate k '\n' ++ collapse_runs isBlank false t := by
  intro k
  induction k with
  | zero => intro t; simp
  | succ n ih =>
    intro t
    rw [List.replicate_succ, List.cons_append,
      collapse_runs_cons_nonp (by decide), ih, List.cons_append]

theorem collapse_runs_space {t : List Char} {d : Char} (hd : isBlank d = false) :
    collapse_runs isBlank false (' ' :: d :: t) =
      ' ' :: d :: collapse_runs isBlank false t := by
  simp only [collapse_runs]
  rw [if_pos (show isBlank ' ' = true by decide), if_neg (by decide), hd]
  rw [if_neg (by decide)]

theorem collapse_runs_line_one (rest : List Char) :
    collapse_runs isBlank false (('l' :: 'i' :: 'n' :: 'e' :: ' ' :: 'o' ::
        'n' :: 'e' :: rest)) =
      'l' :: 'i' :: 'n' :: 'e' :: ' ' :: 'o' :: 'n' :: 'e' ::
        collapse_runs isBlank false rest := by
  rw [collapse_runs_cons_nonp (by decide), collapse_runs_cons_nonp (by decide),
    collapse_runs_cons_nonp (by decide), collapse_runs_cons_nonp (by decide),
    collapse_runs_space (by decide), collapse_runs_cons_nonp (by decide),
    collapse_runs_cons_nonp (by decide)]

theorem bslash_n_go_id : ∀ (fuel : Nat) (l : List Char), '\\' ∉ l →
    bslash_n_go fuel l = l := by
  intro fuel
  induction fuel with
  | zero => intro l _; cases l <;> rfl
  | succ n ih =>
    intro l hl
    cases l with
    | nil => rfl
    | cons c t =>
      have hc : ¬ c = '\\' := fun h => hl (h ▸ List.mem_cons_self c t)
      simp only [bslash_n_go, if_neg hc]
      rw [ih t (fun h => hl (List.mem_cons_of_mem c h))]

theorem bslash_n_id {l : List Char} (h : '\\' ∉ l) : bslash_n l = l :=
  bslash_n_go_id l.length l h

theorem nl3_cons_nonl {c : Char} (hc : ¬ c = '\n') (run : Nat) (t : List Char) :
    nl3_go run (c :: t) = flush3 run ++ c :: nl3_go 0 t := by
  simp only [nl3_go, if_neg hc]

theorem nl3_prefix : ∀ (l t : List Char), '\n' ∉ l →
    nl3_go 0 (l ++ t) = l ++ nl3_go 0 t := by
  intro l
  induction l with
  | nil => intro t _; rfl
  | cons c l' ih =>
    intro t hl
    have hc : ¬ c = '\n' := fun h => hl (h ▸ List.mem_cons_self c l')
    rw [List.cons_append, nl3_cons_nonl hc,
      ih t (fun h => hl (List.mem_cons_of_mem c h))]
    simp [flush3]

theorem nl3_run : ∀ (j run : Nat) (t : List Char),
    nl3_go run (List.replicate j '\n' ++ t) = nl3_go (run + j) t := by
  intro j
  induction j with
  | zero => intro run t; rfl
  | succ n ih =>
    intro run t
    rw [List.replicate_succ, List.cons_append]
    show nl3_go run ('\n' :: _) = _
    simp only [nl3_go]
    rw [if_pos trivial, ih]
    have h : run + 1 + n = run + (n + 1) := by omega
    rw [h]

/-- C9 counterexample: four newlines between two lines do NOT normalize to a
retained blank line.  `re.sub(r"\n{3,}", "\n\n", ...)` first collapses the run
to two newlines, but the later `re.sub(r"\n{2}", "\n", ...)` collapses that
double break to a single one, so the result is `"line one\nline two"`, not the
claimed `"line one\n\nline two"`. -/
theorem ocr_blank_line_not_retained :
    normalize_ocr_text (r"line one".toList ++ List.replicate 4 '\n' ++
        r"line two".toList) =
      r"line one".toList ++ '\n' :: r"line two".toList ∧
    r"line one".toList ++ '\n' :: r"line two".toList ≠
      r"line one".toList ++ '\n' :: '\n' :: r"line two".toList := by decide

/-- C9 amended: the OCR normalizer collapses every run of three or more line
breaks between "line one" and "line two" down to a SINGLE line break (the
`\n{3,}` pass leaves two, and the later `\n{2}` pass merges them), so no blank
line survives in the result. -/
theorem ocr_newline_collapse (k : Nat) (hk : 3 ≤ k) :
    normalize_ocr_text (r"line one".toList ++ List.replicate k '\n' ++
        r"line two".toList) =
      r"line one".toList ++ '\n' :: r"line two".toList := by
  have hA : r"line one".toList = ['l', 'i', 'n', 'e', ' ', 'o', 'n', 'e'] := rfl
  have hB : r"line two".toList = ['l', 'i', 'n', 'e', ' ', 't', 'w', 'o'] := rfl
  rw [hA, hB]
  unfold normalize_ocr_text
  dsimp only
  rw [List.append_assoc]
  have hcr : '\r' ∉ ['l', 'i', 'n', 'e', ' ', 'o', 'n', 'e'] ++
      (List.replicate k '\n' ++ ['l', 'i', 'n', 'e', ' ', 't', 'w', 'o']) := by
    simp [List.mem_append, List.mem_replicate]
  rw [norm_eol_of_no_cr hcr]
  simp only [List.cons_append, List.nil_append]
  rw [collapse_runs_line_one, collapse_runs_nl_mid]
  rw [show collapse_runs isBlank false ['l', 'i', 'n', 'e', ' ', 't', 'w', 'o'] =
    ['l', 'i', 'n', 'e', ' ', 't', 'w', 'o'] from by decide]
  have hbs : '\\' ∉ ('l' :: 'i' :: 'n' :: 'e' :: ' ' :: 'o' :: 'n' :: 'e' ::
      (List.replicate k '\n' ++ ['l', 'i', 'n', 'e', ' ', 't', 'w', 'o'])) := by
    simp [List.mem_replicate]
  rw [bslash_n_id hbs]
  have hpre := nl3_prefix ['l', 'i', 'n', 'e', ' ', 'o', 'n', 'e']
    (List.replicate k '\n' ++ ['l', 'i', 'n', 'e', ' ', 't', 'w', 'o'])
    (by decide)
  simp only [List.cons_append, List.nil_append] at hpre
  rw [hpre, nl3_run]
  rw [nl3_cons_nonl (by decide)]
  rw [show flush3 (0 + k) = ['\n', '\n'] from by
    unfold flush3
    rw [if_pos (show 3 ≤ 0 + k by omega)]]
  rw [show nl3_go 0 ['i', 'n', 'e', ' ', 't', 'w', 'o'] =
    ['i', 'n', 'e', ' ', 't', 'w', 'o'] from by decide]
  decide

theorem ocr_newline_collapse_witness :
    3 ≤ 5 ∧
      normalize_ocr_text (r"line one".toList ++ List.replicate 5 '\n' ++
          r"line two".toList) =
        r"line one".toList ++ '\n' :: r"line two".toList :=
  ⟨by decide, ocr_newline_collapse 5 (by decide)⟩

/-- The engine-state fields relevant to translate calls: backend selection,
readiness flags, translator presence (`is not None`), and the four error
strings (`__init__`, lines 55-76). -/
structure EngineState where
  mt_backend : List Char
  ocr_ready : Bool
  en2zh_ready : Bool
  zh2en_ready : Bool
  en2zh_present : Bool
  zh2en_present : Bool
  last_error : List Char
  last_ocr_error : List Char
  last_en2zh_error : List Char
  last_zh2en_error : List Char

/-- The status snapshot returned by `CoreEngine.status` (lines 80-89). -/
structure EngineStatus where
  ocr_ready : Bool
  en2zh_ready : Bool
  zh2en_ready : Bool
  last_error : List Char
  ocr_error : List Char
  en2zh_error : List Char
  zh2en_error : List Char

/-- `CoreEngine._set_error` (lines 626-634): always overwrite `_last_error`,
and additionally the per-kind field selected by `kind`. -/
def set_error (msg kind : List Char) (s : EngineState) : EngineState :=
  let s1 := { s with last_error := msg }
  if kind = r"ocr".toList then { s1 with last_ocr_error := msg }
  else if kind = r"en2zh".toList then { s1 with last_en2zh_error := msg }
  else if kind = r"zh2en".toList then { s1 with last_zh2en_error := msg }
  else s1

/-- `CoreEngine.status` (lines 80-89). -/
def status (s : EngineState) : EngineStatus :=
  ⟨s.ocr_ready, s.en2zh_ready, s.zh2en_ready, s.last_error, s.last_ocr_error,
    s.last_en2zh_error, s.last_zh2en_error⟩

/-- One CTranslate2 batch result: a list of hypotheses, each a token list. -/
structure TransResult where
  hypotheses : List (List (List Char))

/-- The keyword arguments of the single `translate_batch` call
(lines 363-374). -/
structure BatchKwargs where
  beam_size : Nat
  repetition_penalty : ℚ
  max_decoding_length : Nat
  return_scores : Bool
  no_repeat_ngram_size : Nat
  target_prefix : Option (List (List (List Char)))

/-- A record of one issued `translate_batch` call. -/
structure LogEntry where
  sequences : List (List (List Char))
  kwargs : BatchKwargs

/-- The external translator stack as oracles: the SentencePiece encoder, the
CTranslate2 batch translator, the target SentencePiece decoder (with its
presence flag, line 391), and the NLLB path used when the backend is
`"nllb"`.  Each fallible step returns `Except`, the embedding of a Python
exception. -/
structure MtOracle where
  encode : List Char → Except (List Char) (List (List Char))
  translate_batch :
    List (List (List Char)) → BatchKwargs → Except (List Char) (List TransResult)
  sp_tgt_present : Bool
  decode : List (List Char) → Except (List Char) (List Char)
  nllb : List Char → Except (List Char) (List Char)

/-- Python truthiness of the optional `target_prefix_token` argument: an
empty token behaves like an absent one (lines 373 and 381). -/
def eff_tpt : Option (List Char) → Option (List Char)
  | some tok => if tok = [] then none else some tok
  | none => none

/-- Python truthiness of the optional `source_prefix_tokens` argument: an
empty list behaves like an absent one (lines 353 and 383). -/
def eff_spt : Option (List (List Char)) → Option (List (List Char))
  | some pres => if pres = [] then none else some pres
  | none => none

/-- `t.startswith("__") and t.endswith("__")` (line 388). -/
def is_dunder (t : List Char) : Bool :=
  match t with
  | '_' :: '_' :: _ =>
    match t.reverse with
    | '_' :: '_' :: _ => true
    | _ => false
  | _ => false

/-- `CoreEngine._detokenize_ct2` (lines 616-624): drop empty and
`</s>`/`<pad>` tokens, map `▁` to space, join and strip. -/
def detokenize_ct2 (tokens : List (List Char)) : List Char :=
  strip (((tokens.filter (fun t =>
      ¬(t = [] ∨ t = r"</s>".toList ∨ t = r"<pad>".toList))).map
    (fun t => t.map (fun c => if c = '▁' then ' ' else c))).flatten)

/-- The tokenization loop of `_translate_with_chunking` (lines 345-360):
skip `"\n"` chunks and blank chunks, encode the stripped chunk, prepend the
source prefix tokens, append `"</s>"` when missing, and pair each token list
with its chunk index. -/
def collect_tokens (enc : List Char → Except (List Char) (List (List Char)))
    (sp : Option (List (List Char))) : Nat → List (List Char) →
    Except (List Char) (List (Nat × List (List Char)))
  | _, [] => .ok []
  | i, ch :: rest =>
    if ch = ['\n'] then collect_tokens enc sp (i + 1) rest
    else if strip ch = [] then collect_tokens enc sp (i + 1) rest
    else
      match enc (strip ch) with
      | .error e => .error e
      | .ok tks0 =>
        let tks1 :=
          match sp with
          | some pres => pres ++ tks0
          | none => tks0
        let tks2 :=
          if tks1 ≠ [] ∧ tks1.getLast? ≠ some (r"</s>".toList) then
            tks1 ++ [r"</s>".toList]
          else tks1
        if tks2 = [] then collect_tokens enc sp (i + 1) rest
        else
          match collect_tokens enc sp (i + 1) rest with
          | .error e => .error e
          | .ok ps => .ok ((i, tks2) :: ps)

/-- The per-result loop of `_translate_with_chunking` (lines 376-395): pick
the top hypothesis, drop leading prefix tokens, drop `__...__` markers,
decode (SentencePiece or the CT2 fallback), postprocess, and record the
output against its chunk index.  Slots whose hypothesis becomes empty are
skipped. -/
def process_results (dec : List (List Char) → Except (List Char) (List Char))
    (sp_tgt_present : Bool) (drop : List (List Char))
    (results : List TransResult) : Nat → List (Nat × List (List Char)) →
    Except (List Char) (List (Nat × List Char))
  | _, [] => .ok []
  | res_idx, (ci, _) :: rest =>
    let hyp0 : List (List Char) :=
      match results[res_idx]? with
      | some r =>
        match r.hypotheses with
        | [] => []
        | h0 :: _ => h0
      | none => []
    let hyp1 := hyp0.dropWhile (fun t => drop.contains t)
    let hyp2 := if hyp1 = [] then hyp1 else hyp1.filter (fun t => ! is_dunder t)
    if hyp2 = [] then process_results dec sp_tgt_present drop results (res_idx + 1) rest
    else
      match (if sp_tgt_present then
          Except.map strip (dec (hyp2.filter (fun t =>
            ¬(t = r"</s>".toList ∨ t = r"<pad>".toList))))
        else .ok (detokenize_ct2 hyp2)) with
      | .error e => .error e
      | .ok out =>
        match process_results dec sp_tgt_present drop results (res_idx + 1) rest with
        | .error e => .error e
        | .ok os => .ok ((ci, postprocess_translation out) :: os)

/-- The output slot list (lines 343-344 and 346-348 plus the updates of line
395): `"\n"` chunks own a `"\n"` slot, untranslated chunks an empty one, and
translated chunks their postprocessed output. -/
def out_slots (chunks : List (List Char)) (outs : List (Nat × List Char)) :
    List (List Char) :=
  chunks.mapIdx (fun i ch =>
    match outs.lookup i with
    | some o => o
    | none => if ch = ['\n'] then ['\n'] else [])

/-- `CoreEngine._translate_with_chunking` (lines 327-419), returning the
translation result (or the uncaught exception) together with the list of
`translate_batch` calls it issued. -/
def translate_with_chunking (O : MtOracle) (text : List Char)
    (tpt : Option (List Char)) (spt : Option (List (List Char))) :
    Except (List Char) (List Char) × List LogEntry :=
  if strip text = [] then (.ok [], [])
  else
    let chunks := chunk_text (strip text)
    let tp := eff_tpt tpt
    let sp := eff_spt spt
    match collect_tokens O.encode sp 0 chunks with
    | .error e => (.error e, [])
    | .ok pairs =>
      if pairs = [] then (.ok (merge_parts (out_slots chunks [])), [])
      else
        let seqs := pairs.map (fun pr => pr.2)
        let kw : BatchKwargs :=
          ⟨7, 3 / 2, 1024, false, 5,
            tp.map (fun tok => List.replicate seqs.length [tok])⟩
        match O.translate_batch seqs kw with
        | .error e => (.error e, [⟨seqs, kw⟩])
        | .ok results =>
          let drop :=
            (match tp with
             | some tok => [tok]
             | none => []) ++
            (match sp with
             | some pres => pres.filter (fun t => t ≠ [])
             | none => [])
          match process_results O.decode O.sp_tgt_present drop results 0 pairs with
          | .error e => (.error e, [⟨seqs, kw⟩])
          | .ok outs => (.ok (merge_parts (out_slots chunks outs)), [⟨seqs, kw⟩])

/-- The guarded body of `translate_en2zh` (lines 102-104): the NLLB path when
the backend is `"nllb"`, otherwise the chunking path with no prefixes. -/
def en2zh_body (norm : List Char → List Char) (O : MtOracle) (text : List Char)
    (s : EngineState) : Except (List Char) (List Char) :=
  if s.mt_backend = r"nllb".toList then O.nllb (norm text)
  else (translate_with_chunking O (norm text) none none).1

/-- `CoreEngine.translate_en2zh` (lines 91-107), with the input normalizer
abstracted as `norm`.  The `try/except` of lines 101-107 appears as the match
on the body's `Except`. -/
def translate_en2zh (norm : List Char → List Char) (O : MtOracle)
    (text : List Char) (s : EngineState) : List Char × EngineState :=
  if norm text = [] then ([], s)
  else if s.mt_backend = r"none".toList then
    ([], set_error (r"Translation backend disabled".toList) (r"en2zh".toList) s)
  else if s.en2zh_ready && s.en2zh_present then
    match en2zh_body norm O text s with
    | .ok r => (r, s)
    | .error e =>
      ([], set_error (r"EN->ZH translation failed: ".toList ++ e)
        (r"en2zh".toList) s)
  else
    ([], set_error
      (if s.last_en2zh_error = [] then r"EN->ZH translator not ready".toList
       else s.last_en2zh_error) (r"en2zh".toList) s)

/-- The guarded body of `translate_zh2en` (lines 120-122). -/
def zh2en_body (O : MtOracle) (text : List Char) (s : EngineState) :
    Except (List Char) (List Char) :=
  if s.mt_backend = r"nllb".toList then O.nllb (strip text)
  else (translate_with_chunking O (strip text) none none).1

/-- `CoreEngine.translate_zh2en` (lines 109-125). -/
def translate_zh2en (O : MtOracle) (text : List Char) (s : EngineState) :
    List Char × EngineState :=
  if strip text = [] then ([], s)
  else if s.mt_backend = r"none".toList then
    ([], set_error (r"Translation backend disabled".toList) (r"zh2en".toList) s)
  else if s.zh2en_ready && s.zh2en_present then
    match zh2en_body O text s with
    | .ok r => (r, s)
    | .error e =>
      ([], set_error (r"ZH->EN translation failed: ".toList ++ e)
        (r"zh2en".toList) s)
  else
    ([], set_error
      (if s.last_zh2en_error = [] then r"ZH->EN translator not ready".toList
       else s.last_zh2en_error) (r"zh2en".toList) s)

/-- C10: every recorded error overwrites the global `last_error` with the
identical message (so after any sequence of recordings, `status().last_error`
is the most recent message, whatever its kind), and each per-direction error
field changes only when the error's kind is its own. -/
theorem set_error_global (s : EngineState)
    (ops : List (List Char × List Char)) (m k : List Char) :
    (status (List.foldl (fun st p => set_error p.1 p.2 st) s
        (ops ++ [(m, k)]))).last_error = m ∧
    (status (set_error m k s)).last_error = m ∧
    (status (set_error m k s)).ocr_error =
      (if k = r"ocr".toList then m else s.last_ocr_error) ∧
    (status (set_error m k s)).en2zh_error =
      (if k = r"en2zh".toList then m else s.last_en2zh_error) ∧
    (status (set_error m k s)).zh2en_error =
      (if k = r"zh2en".toList then m else s.last_zh2en_error) := by
  refine ⟨?_, ?_, ?_, ?_, ?_⟩
  · rw [List.foldl_append]
    simp only [List.foldl_cons, List.foldl_nil]
    unfold set_error status
    dsimp only
    split_ifs <;> rfl
  · unfold set_error status
    dsimp only
    split_ifs <;> rfl
  · unfold set_error status
    dsimp only
    split_ifs <;> rfl
  · unfold set_error status
    dsimp only
    split_ifs <;> first | rfl | (exfalso; simp_all)
  · unfold set_error status
    dsimp only
    split_ifs <;> first | rfl | (exfalso; simp_all)

/-- C1: a translate call never surfaces an exception.  Its result is the
empty string or exactly the body's successful output (never partial), and
when the guarded body raises, the call returns the empty string and records
the direction's failure message both in the per-direction field and in the
global `last_error`. -/
theorem translate_calls_safe (norm : List Char → List Char) (Oa Ob : MtOracle)
    (ta tb : List Char) (s : EngineState) :
    ((translate_en2zh norm Oa ta s).1 = [] ∨
      en2zh_body norm Oa ta s = .ok (translate_en2zh norm Oa ta s).1) ∧
    (∀ e, en2zh_body norm Oa ta s = .error e → norm ta ≠ [] →
      ¬ s.mt_backend = r"none".toList → s.en2zh_ready = true →
      s.en2zh_present = true →
      (translate_en2zh norm Oa ta s).1 = [] ∧
      (translate_en2zh norm Oa ta s).2.last_en2zh_error =
        r"EN->ZH translation failed: ".toList ++ e ∧
      (status (translate_en2zh norm Oa ta s).2).last_error =
        r"EN->ZH translation failed: ".toList ++ e) ∧
    ((translate_zh2en Ob tb s).1 = [] ∨
      zh2en_body Ob tb s = .ok (translate_zh2en Ob tb s).1) ∧
    (∀ e, zh2en_body Ob tb s = .error e → strip tb ≠ [] →
      ¬ s.mt_backend = r"none".toList → s.zh2en_ready = true →
      s.zh2en_present = true →
      (translate_zh2en Ob tb s).1 = [] ∧
      (translate_zh2en Ob tb s).2.last_zh2en_error =
        r"ZH->EN translation failed: ".toList ++ e ∧
      (status (translate_zh2en Ob tb s).2).last_error =
        r"ZH->EN translation failed: ".toList ++ e) := by
  refine ⟨?_, ?_, ?_, ?_⟩
  · unfold translate_en2zh
    split_ifs with h1 h2 h3 h4
    · exact Or.inl rfl
    · exact Or.inl rfl
    · rcases hE : en2zh_body norm Oa ta s with e | r
      · exact Or.inl rfl
      · exact Or.inr rfl
    · exact Or.inl rfl
    · exact Or.inl rfl
  · intro e hE hn hb hr hp
    unfold translate_en2zh
    rw [if_neg hn, if_neg hb, if_pos (by simp [hr, hp])]
    rw [hE]
    refine ⟨rfl, ?_, ?_⟩
    · unfold set_error
      dsimp only
      rw [if_neg (by decide), if_pos rfl]
    · unfold set_error status
      dsimp only
      rw [if_neg (by decide), if_pos rfl]
  · unfold translate_zh2en
    split_ifs with h1 h2 h3 h4
    · exact Or.inl rfl
    · exact Or.inl rfl
    · rcases hE : zh2en_body Ob tb s with e | r
      · exact Or.inl rfl
      · exact Or.inr rfl
    · exact Or.inl rfl
    · exact Or.inl rfl
  · intro e hE hn hb hr hp
    unfold translate_zh2en
    rw [if_neg hn, if_neg hb, if_pos (by simp [hr, hp])]
    rw [hE]
    refine ⟨rfl, ?_, ?_⟩
    · unfold set_error
      dsimp only
      rw [if_neg (by decide), if_neg (by decide), if_pos rfl]
    · unfold set_error status
      dsimp only
      rw [if_neg (by decide), if_neg (by decide), if_pos rfl]

/-- A translator stack whose batch call (and NLLB path) always raises. -/
def failO : MtOracle :=
  ⟨fun c => .ok [c], fun _ _ => .error (r"boom".toList), false,
    fun _ => .ok [], fun _ => .error (r"boom".toList)⟩

/-- A ready engine state on the default (`"opus"`) chunking backend. -/
def okS : EngineState :=
  ⟨r"opus".toList, true, true, true, true, true, [], [], [], []⟩

theorem translate_calls_safe_witness :
    en2zh_body id failO (r"hi".toList) okS = .error (r"boom".toList) ∧
      (translate_en2zh id failO (r"hi".toList) okS).1 = [] ∧
      (status (translate_en2zh id failO (r"hi".toList) okS).2).last_error =
        r"EN->ZH translation failed: boom".toList := by
  refine ⟨rfl, ?_⟩
  have h := (translate_calls_safe id failO failO (r"hi".toList) (r"hi".toList)
    okS).2.1 (r"boom".toList) rfl (by decide) (by decide) rfl rfl
  exact ⟨h.1, h.2.2⟩

/-- C8: when tokenization succeeds with at least one token sequence, the
chunking translator issues exactly one batched call, covering every token
sequence derived from the input, with beam size 7, repetition penalty 3/2,
maximum decoding length 1024, scores disabled, a no-repeat-n-gram size of 5,
and — when a target-language tag is supplied (multilingual mode) — one
single-tag decoding prefix per sequence. -/
theorem single_batch_call (O : MtOracle) (text : List Char)
    (tpt : Option (List Char)) (spt : Option (List (List Char)))
    (pairs : List (Nat × List (List Char)))
    (hs : strip text ≠ [])
    (hcol : collect_tokens O.encode (eff_spt spt) 0
      (chunk_text (strip text)) = .ok pairs)
    (hne : pairs ≠ []) :
    (translate_with_chunking O text tpt spt).2 =
      [⟨pairs.map (fun pr => pr.2),
        ⟨7, 3 / 2, 1024, false, 5,
          (eff_tpt tpt).map (fun tok =>
            List.replicate (pairs.map (fun pr => pr.2)).length [tok])⟩⟩] := by
  unfold translate_with_chunking
  rw [if_neg hs]
  dsimp only
  rw [hcol]
  dsimp only
  rw [if_neg hne]
  split
  · rfl
  · split
    · rfl
    · rfl

/-- A translator stack that encodes each chunk as one token and returns no
hypotheses. -/
def O8 : MtOracle :=
  ⟨fun c => .ok [c], fun _ _ => .ok [], false, fun _ => .ok [],
    fun _ => .ok []⟩

theorem single_batch_call_witness :
    strip (r"hi".toList) ≠ [] ∧
      (translate_with_chunking O8 (r"hi".toList) (some ['z']) none).2 =
        [⟨[[['h', 'i'], r"</s>".toList]],
          ⟨7, 3 / 2, 1024, false, 5, some [[['z']]]⟩⟩] := by
  refine ⟨by decide, ?_⟩
  exact single_batch_call O8 (r"hi".toList) (some ['z']) none
    [(0, [['h', 'i'], r"</s>".toList])] (by decide) rfl (by decide)
